import Mathlib

/-!
Verification of the heuristic move-selection engine of the Tic-Tac-Toe
smart-bot repository (`smart_bot.py`).

The board is a 3×3 grid given as a list of rows of cell strings; empty
cells are `"_"` and stones are `"X"` or `"O"`.  Python dicts from moves
to scores are modelled as insertion-ordered association lists (CPython
dicts preserve insertion order), and Python's `sorted(items,
key=value, reverse=True)` — a stable sort — is modelled by a stable
insertion sort by value descending.  `random.randint(1, 9)` inside the
rejection-sampling loop of `make_random_move` is modelled by the stream
of drawn values, passed explicitly.
-/

/-- A Python dict from moves to scores: an insertion-ordered association list. -/
abbrev PyDict := List (Nat × Nat)

/-- The keys of a dict, in insertion order. -/
def dkeys (d : PyDict) : List Nat := d.map Prod.fst

/-- Lookup `d.get(k)`. -/
def dget (d : PyDict) (k : Nat) : Option Nat :=
  (d.find? (fun p => p.1 == k)).map Prod.snd

/-- Lookup with default, `d.get(k, v0)`. -/
def dgetD (d : PyDict) (k v0 : Nat) : Nat := (dget d k).getD v0

/-- Assignment `d[k] = v`: if the key is present its value is updated in
place (the key keeps its position), otherwise the pair is appended, exactly
as for a CPython dict (whose keys are unique). -/
def dinsert : PyDict → Nat → Nat → PyDict
  | [], k, v => [(k, v)]
  | p :: d, k, v => if p.1 = k then (k, v) :: d else p :: dinsert d k v

/-- Stable insertion into a list that is sorted by value descending: the new
pair goes after every strictly greater value and before the first value that
is not strictly greater, so pairs of equal value keep their original order. -/
def insertValDesc (x : Nat × Nat) : PyDict → PyDict
  | [] => [x]
  | y :: ys => if y.2 > x.2 then y :: insertValDesc x ys else x :: y :: ys

/-- Embedding of `sort_dictonary`: `sorted(d.items(), key=value, reverse=True)`
is a stable sort by value descending, realised as a stable insertion sort. -/
def sort_dictonary : PyDict → PyDict
  | [] => []
  | x :: xs => insertValDesc x (sort_dictonary xs)

/-- Access `game_board[i][j]`, with a default that is never reached on the
3×3 boards the engine is used on. -/
def cellD {α : Type} [Inhabited α] (game_board : List (List α)) (i j : Nat) : α :=
  (((game_board.get? i).getD []).get? j).getD default

/-- Embedding of `get_player_fields`: the two nested index loops; after
`row_index` rows the accumulator `prev_rows` of the source holds
`2 * row_index`, so the recorded move is `row_index + 2 * row_index + col_index + 1`. -/
def get_player_fields (game_board : List (List String)) (player_symbol : String) : List Nat :=
  (List.range game_board.length).flatMap (fun row_index =>
    (List.range ((game_board.get? row_index).getD []).length).filterMap (fun col_index =>
      if cellD game_board row_index col_index = player_symbol then
        some (row_index + 2 * row_index + col_index + 1)
      else none))

/-- Embedding of `get_possible_moves`: the set difference
`set(range(1, 10)) - occupied`, listed in CPython's ascending iteration
order for a set of small integers. -/
def get_possible_moves (game_board : List (List String)) : List Nat :=
  let occupied_fields_other := get_player_fields game_board "X"
  let occupied_fields_KI := get_player_fields game_board "O"
  (List.range' 1 9).filter
    (fun m => decide (m ∉ occupied_fields_other ∧ m ∉ occupied_fields_KI))

/-- Embedding of `get_diagonal_counts`: the dict `{0: count_diag1, 1: count_diag2}`. -/
def get_diagonal_counts (game_board : List (List String)) (player_symbol : String) : PyDict :=
  let count_diag1 := ((List.range 3).filter (fun i => cellD game_board i i == player_symbol)).length
  let count_diag2 := ((List.range 3).filter (fun i => cellD game_board i (2 - i) == player_symbol)).length
  [(0, count_diag1), (1, count_diag2)]

/-- The inner loop shared by `get_optimized_diagonal_moves` and
`get_optimized_straight_moves`: assign the count `cnt` to every possible move
that lies on `line`. -/
def line_assign (possible_moves line : List Nat) (cnt : Nat) (best_moves : PyDict) : PyDict :=
  possible_moves.foldl
    (fun best_moves move => if move ∈ line then dinsert best_moves move cnt else best_moves)
    best_moves

/-- The outer loop shared by `get_optimized_diagonal_moves` and
`get_optimized_straight_moves`: for every line index in the counts dict,
assign its count to the possible moves on that line. -/
def lines_assign (all_moves : List (List Nat)) (possible_moves : List Nat)
    (sorted_fields : PyDict) : PyDict :=
  sorted_fields.foldl
    (fun best_moves rc => line_assign possible_moves (all_moves.getD rc.1 []) rc.2 best_moves) []

/-- Embedding of `get_optimized_diagonal_moves`: for each diagonal index in the
counts dict, every possible move on that diagonal is assigned that diagonal's
count; the result is sorted by value descending. -/
def get_optimized_diagonal_moves (sorted_fields : PyDict) (possible_moves : List Nat) : PyDict :=
  sort_dictonary (lines_assign [[1, 5, 9], [3, 5, 7]] possible_moves sorted_fields)

/-- Embedding of `get_horizontal_counts`: the dict from row index to the number
of the player's stones in that row, sorted by count descending. -/
def get_horizontal_counts (game_board : List (List String)) (player_symbol : String) : PyDict :=
  sort_dictonary ((List.range game_board.length).map (fun row_index =>
    (row_index,
      (((game_board.get? row_index).getD []).filter (fun c => c == player_symbol)).length)))

/-- Embedding of `transposed`: the list comprehension
`[[b[j][i] for j in range(len(b))] for i in range(len(b[0]))]`. -/
def transposed {α : Type} [Inhabited α] (game_board : List (List α)) : List (List α) :=
  (List.range (game_board.headD []).length).map (fun i =>
    (List.range game_board.length).map (fun j => cellD game_board j i))

/-- Embedding of `get_vertical_counts`: row counts of the transposed board. -/
def get_vertical_counts (game_board : List (List String)) (player_symbol : String) : PyDict :=
  get_horizontal_counts (transposed game_board) player_symbol

/-- Embedding of `get_optimized_straight_moves`: for each line index in the
counts dict, every possible move on that row (or column) is assigned that
line's count.  The output is not sorted. -/
def get_optimized_straight_moves (sorted_fields : PyDict) (possible_moves : List Nat)
    (horizontal : Bool) : PyDict :=
  lines_assign
    (if horizontal then [[1, 2, 3], [4, 5, 6], [7, 8, 9]]
     else transposed [[1, 2, 3], [4, 5, 6], [7, 8, 9]])
    possible_moves sorted_fields

/-- Embedding of `make_random_move`: the rejection-sampling loop, on the
explicit stream `draws` of values produced by `random.randint(1, 9)`; the loop
returns the first drawn value that is a possible move and never returns when
no draw in the stream is accepted. -/
def make_random_move (game_board : List (List String)) (draws : List Nat) : Option Nat :=
  let possible_moves := get_possible_moves game_board
  draws.find? (fun random_move => decide (random_move ∈ possible_moves))

/-- One step of the merging loop of `get_sorted_moves`:
`combined[key] = max(combined[key], value)` over a `defaultdict(int)`
(the read of a missing key yields 0, and the first touch of a key fixes
its position). -/
def merge_step (combined_moves : PyDict) (kv : Nat × Nat) : PyDict :=
  dinsert combined_moves kv.1 (max (dgetD combined_moves kv.1 0) kv.2)

/-- Embedding of `get_sorted_moves`: merge the two dicts with `merge_step`
over their concatenated item lists, then sort by value descending. -/
def get_sorted_moves (optimized_horizontal_moves optimized_vertical_moves : PyDict) : PyDict :=
  sort_dictonary
    ((optimized_horizontal_moves ++ optimized_vertical_moves).foldl merge_step [])

/-- Embedding of `calc_optimized_move`. -/
def calc_optimized_move (game_board : List (List String)) (player_symbol : String) : PyDict :=
  let possible_moves := get_possible_moves game_board
  let sorted_horizontal_fields := get_horizontal_counts game_board player_symbol
  let sorted_vertical_fields := get_vertical_counts game_board player_symbol
  let sorted_diagonal_fields := get_diagonal_counts game_board player_symbol
  let optimized_hori_moves := get_optimized_straight_moves sorted_horizontal_fields possible_moves true
  let optimized_verti_moves := get_optimized_straight_moves sorted_vertical_fields possible_moves false
  let optimized_diag_moves := get_optimized_diagonal_moves sorted_diagonal_fields possible_moves
  let optimized_diag_pref_moves := get_sorted_moves optimized_diag_moves optimized_verti_moves
  get_sorted_moves optimized_diag_pref_moves optimized_hori_moves

/-- Embedding of `make_smart_move`: merge the player's and the opponent's
score maps and take the first key, or `-1` when there is none. -/
def make_smart_move (game_board : List (List String)) (player_symbol opponent_symbol : String) :
    Int :=
  let curr_player_optimized_moves := calc_optimized_move game_board player_symbol
  let opponent_optimized_moves := calc_optimized_move game_board opponent_symbol
  let min_max_sorted_moves := get_sorted_moves curr_player_optimized_moves opponent_optimized_moves
  match dkeys min_max_sorted_moves with
  | [] => -1
  | m :: _ => (m : Int)

/-! Specification-level vocabulary used to state the claims. -/

/-- The cell of the board that a move in 1–9 refers to, via
`row = (move - 1) / 3`, `col = (move - 1) % 3`. -/
def cellAtMove (game_board : List (List String)) (m : Nat) : String :=
  cellD game_board ((m - 1) / 3) ((m - 1) % 3)

/-- The eight winning lines, each an ordered triple of moves: three rows,
three columns and the two diagonals. -/
def allLines : List (List Nat) :=
  [[1, 2, 3], [4, 5, 6], [7, 8, 9], [1, 4, 7], [2, 5, 8], [3, 6, 9], [1, 5, 9], [3, 5, 7]]

/-- How many cells of a line hold the given symbol. -/
def lineCount (game_board : List (List String)) (player_symbol : String) (line : List Nat) :
    Nat :=
  (line.filter (fun m => cellAtMove game_board m == player_symbol)).length

/-- The board is a well-formed 3×3 grid. -/
@[reducible]
def WF (game_board : List (List String)) : Prop :=
  game_board.length = 3 ∧ ∀ row ∈ game_board, row.length = 3

/-- Every cell of the board is `"_"`, `"X"` or `"O"`. -/
@[reducible]
def AlphabetBoard (game_board : List (List String)) : Prop :=
  ∀ row ∈ game_board, ∀ c ∈ row, c = "_" ∨ c = "X" ∨ c = "O"

/-- The hypothesis of the completion-preference claim: `line` is a winning line
holding two of the self symbol's stones and the empty cell `c`, and every other
line holds strictly fewer of the self symbol's stones. -/
@[reducible]
def CompletionHyp (game_board : List (List String)) (s : String) (line : List Nat) (c : Nat) :
    Prop :=
  line ∈ allLines ∧ lineCount game_board s line = 2 ∧ c ∈ line ∧
    cellAtMove game_board c = "_" ∧
    ∀ l ∈ allLines, l ≠ line → lineCount game_board s l < 2

/-- The hypothesis of the blocking claim: `line` holds two opponent stones and
the empty cell `c`, no other line holds two opponent stones together with an
empty cell, and no line holds two self stones together with an empty cell. -/
@[reducible]
def BlockingHyp (game_board : List (List String)) (s o : String) (line : List Nat) (c : Nat) :
    Prop :=
  line ∈ allLines ∧ lineCount game_board o line = 2 ∧ c ∈ line ∧
    cellAtMove game_board c = "_" ∧
    (∀ l ∈ allLines, l ≠ line →
      ¬(lineCount game_board o l = 2 ∧ ∃ e ∈ l, cellAtMove game_board e = "_")) ∧
    ∀ l ∈ allLines, ¬(lineCount game_board s l = 2 ∧ ∃ e ∈ l, cellAtMove game_board e = "_")

/-- The row line (as a triple of moves) that a move lies on. -/
def rowLineOf (m : Nat) : List Nat := allLines.getD ((m - 1) / 3) []

/-- The column line (as a triple of moves) that a move lies on. -/
def colLineOf (m : Nat) : List Nat := allLines.getD (3 + (m - 1) % 3) []

/-- The diagonal contribution the code assigns to a move: moves on the
anti-diagonal (including the centre, which lies on both diagonals and whose
main-diagonal assignment is overwritten) get the anti-diagonal count, the two
remaining main-diagonal corners get the main-diagonal count, and other moves
get nothing. -/
def diagAssigned (game_board : List (List String)) (s : String) (m : Nat) : Nat :=
  if m ∈ [3, 5, 7] then lineCount game_board s [3, 5, 7]
  else if m ∈ [1, 9] then lineCount game_board s [1, 5, 9]
  else 0

/-- The score `calc_optimized_move` ends up assigning to an empty move. -/
def moveScore (game_board : List (List String)) (s : String) (m : Nat) : Nat :=
  max (max (diagAssigned game_board s m) (lineCount game_board s (colLineOf m)))
    (lineCount game_board s (rowLineOf m))

/-- Keys of the dict, duplicate-free.  Every dict the engine builds satisfies
this, as Python dict keys are unique. -/
@[reducible]
def DNodup (d : PyDict) : Prop := (dkeys d).Nodup

/-! ### Dictionary lemmas -/

theorem dget_nil (a : Nat) : dget [] a = none := rfl

theorem dget_cons (p : Nat × Nat) (d : PyDict) (a : Nat) :
    dget (p :: d) a = if p.1 = a then some p.2 else dget d a := by
  by_cases h : p.1 = a
  · simp [dget, List.find?_cons_of_pos, h]
  · simp [dget, List.find?_cons_of_neg, h]

theorem dkeys_nil : dkeys [] = [] := rfl

theorem dkeys_cons (p : Nat × Nat) (d : PyDict) : dkeys (p :: d) = p.1 :: dkeys d := rfl

theorem dget_dinsert (d : PyDict) (k v a : Nat) :
    dget (dinsert d k v) a = if a = k then some v else dget d a := by
  induction d with
  | nil =>
      simp only [dinsert, dget_cons, dget_nil]
      by_cases h : a = k
      · simp [h]
      · simp [h, Ne.symm h]
  | cons p d ih =>
      by_cases hpk : p.1 = k
      · simp only [dinsert, if_pos hpk, dget_cons]
        by_cases hak : a = k <;> simp_all [eq_comm]
      · simp only [dinsert, if_neg hpk, dget_cons, ih]
        by_cases hpa : p.1 = a <;> by_cases hak : a = k <;> simp_all

theorem mem_dkeys_dinsert (d : PyDict) (k v a : Nat) :
    a ∈ dkeys (dinsert d k v) ↔ a = k ∨ a ∈ dkeys d := by
  induction d with
  | nil => simp [dinsert, dkeys]
  | cons p d ih =>
      by_cases hpk : p.1 = k
      · subst hpk
        simp [dinsert, dkeys_cons]
      · simp only [dinsert, if_neg hpk, dkeys_cons, List.mem_cons, ih]
        tauto

theorem dkeys_dinsert (d : PyDict) (k v : Nat) :
    dkeys (dinsert d k v) = if k ∈ dkeys d then dkeys d else dkeys d ++ [k] := by
  induction d with
  | nil => simp [dinsert, dkeys]
  | cons p d ih =>
      by_cases hpk : p.1 = k
      · subst hpk
        simp [dinsert, dkeys_cons]
      · simp only [dinsert, if_neg hpk, dkeys_cons, ih]
        by_cases hk : k ∈ dkeys d
        · simp [hk, Ne.symm hpk]
        · simp [hk, Ne.symm hpk]

theorem DNodup_dinsert {d : PyDict} (h : DNodup d) (k v : Nat) : DNodup (dinsert d k v) := by
  unfold DNodup at *
  rw [dkeys_dinsert]
  split_ifs with hk
  · exact h
  · simp [List.nodup_append, h, hk]

theorem dget_isSome_iff (d : PyDict) (a : Nat) : (dget d a).isSome ↔ a ∈ dkeys d := by
  induction d with
  | nil => simp [dget_nil, dkeys]
  | cons p d ih =>
      rw [dget_cons]
      by_cases h : p.1 = a
      · simp [h, dkeys_cons]
      · simp [h, dkeys_cons, ih, Ne.symm h]

theorem dget_eq_none_iff (d : PyDict) (a : Nat) : dget d a = none ↔ a ∉ dkeys d := by
  rw [← dget_isSome_iff]
  cases dget d a <;> simp

theorem mem_of_dget {d : PyDict} {a v : Nat} (h : dget d a = some v) : (a, v) ∈ d := by
  induction d with
  | nil => simp [dget_nil] at h
  | cons p d ih =>
      rw [dget_cons] at h
      by_cases hp : p.1 = a
      · rw [if_pos hp] at h
        have hpe : p = (a, v) := by
          cases p
          simp_all
        rw [← hpe]
        exact List.mem_cons_self _ _
      · rw [if_neg hp] at h
        exact List.mem_cons_of_mem _ (ih h)

theorem mem_dkeys_of_mem {d : PyDict} {p : Nat × Nat} (h : p ∈ d) : p.1 ∈ dkeys d :=
  List.mem_map_of_mem Prod.fst h

theorem dget_eq_of_mem {d : PyDict} (hnd : DNodup d) {a v : Nat} (hm : (a, v) ∈ d) :
    dget d a = some v := by
  induction d with
  | nil => simp at hm
  | cons p d ih =>
      rw [dget_cons]
      rcases List.mem_cons.mp hm with h | h
      · simp [← h]
      · have hk : a ∈ dkeys d := mem_dkeys_of_mem h
        have hp : p.1 ≠ a := by
          intro he
          exact (List.nodup_cons.mp hnd).1 (he ▸ hk)
        rw [if_neg hp]
        exact ih (List.nodup_cons.mp hnd).2 h

theorem dget_val_of_mem {d : PyDict} (hnd : DNodup d) {p : Nat × Nat} (hp : p ∈ d) :
    dget d p.1 = some p.2 :=
  dget_eq_of_mem hnd hp

theorem dkeys_perm {d d' : PyDict} (h : d.Perm d') : (dkeys d).Perm (dkeys d') := h.map Prod.fst

theorem DNodup_perm {d d' : PyDict} (h : DNodup d) (hp : d.Perm d') : DNodup d' :=
  (dkeys_perm hp).nodup_iff.mp h

theorem dget_perm {d d' : PyDict} (hnd : DNodup d) (hp : d.Perm d') (a : Nat) :
    dget d a = dget d' a := by
  have hnd' : DNodup d' := DNodup_perm hnd hp
  cases hv : dget d a with
  | none =>
      rw [dget_eq_none_iff] at hv
      symm
      rw [dget_eq_none_iff]
      intro hc
      exact hv (((dkeys_perm hp).mem_iff).mpr hc)
  | some v =>
      symm
      exact dget_eq_of_mem hnd' (hp.mem_iff.mp (mem_of_dget hv))

/-! ### Sorting lemmas -/

theorem insertValDesc_perm (x : Nat × Nat) (l : PyDict) :
    (insertValDesc x l).Perm (x :: l) := by
  induction l with
  | nil => exact List.Perm.refl _
  | cons y ys ih =>
      by_cases h : y.2 > x.2
      · simp only [insertValDesc, if_pos h]
        exact (ih.cons y).trans (List.Perm.swap x y ys)
      · simp [insertValDesc, if_neg h]

theorem sort_dictonary_perm (d : PyDict) : (sort_dictonary d).Perm d := by
  induction d with
  | nil => exact List.Perm.refl _
  | cons x xs ih =>
      exact (insertValDesc_perm x (sort_dictonary xs)).trans (ih.cons x)

theorem DNodup_sort_dictonary {d : PyDict} (h : DNodup d) : DNodup (sort_dictonary d) :=
  DNodup_perm h (sort_dictonary_perm d).symm

theorem dget_sort_dictonary (d : PyDict) (h : DNodup d) (a : Nat) :
    dget (sort_dictonary d) a = dget d a :=
  dget_perm (DNodup_sort_dictonary h) (sort_dictonary_perm d) a

theorem mem_dkeys_sort_dictonary (d : PyDict) (a : Nat) :
    a ∈ dkeys (sort_dictonary d) ↔ a ∈ dkeys d :=
  (dkeys_perm (sort_dictonary_perm d)).mem_iff

theorem insertValDesc_pairwise {l : PyDict} (x : Nat × Nat)
    (hl : l.Pairwise (fun p q => q.2 ≤ p.2)) :
    (insertValDesc x l).Pairwise (fun p q => q.2 ≤ p.2) := by
  induction l with
  | nil => simp [insertValDesc]
  | cons y ys ih =>
      by_cases h : y.2 > x.2
      · simp only [insertValDesc, if_pos h]
        refine List.pairwise_cons.mpr ⟨?_, ih (List.pairwise_cons.mp hl).2⟩
        intro z hz
        rcases List.mem_cons.mp ((insertValDesc_perm x ys).mem_iff.mp hz) with hzx | hzy
        · rw [hzx]
          exact Nat.le_of_lt h
        · exact (List.pairwise_cons.mp hl).1 z hzy
      · simp only [insertValDesc, if_neg h]
        refine List.pairwise_cons.mpr ⟨?_, hl⟩
        intro z hz
        rcases List.mem_cons.mp hz with hzy | hzy'
        · rw [hzy]
          exact Nat.le_of_not_lt h
        · exact le_trans ((List.pairwise_cons.mp hl).1 z hzy') (Nat.le_of_not_lt h)

theorem sort_dictonary_pairwise (d : PyDict) :
    (sort_dictonary d).Pairwise (fun p q => q.2 ≤ p.2) := by
  induction d with
  | nil => simp [sort_dictonary]
  | cons x xs ih => exact insertValDesc_pairwise x ih

/-- Stability at the head: when the first item already carries a maximal
value, the stable sort keeps it first. -/
theorem sort_cons_of_max {xs : PyDict} (x : Nat × Nat) (h : ∀ p ∈ xs, p.2 ≤ x.2) :
    sort_dictonary (x :: xs) = x :: sort_dictonary xs := by
  show insertValDesc x (sort_dictonary xs) = _
  cases hs : sort_dictonary xs with
  | nil => simp [insertValDesc]
  | cons y ys =>
      have hy : y ∈ xs := (sort_dictonary_perm xs).mem_iff.mp (hs ▸ List.mem_cons_self y ys)
      have hny : ¬ y.2 > x.2 := Nat.not_lt.mpr (h y hy)
      simp [insertValDesc, hny]

/-- When a dict holds a pair whose value strictly dominates every pair with a
different key, that pair comes first after sorting. -/
theorem sort_head_unique {d : PyDict} (hnd : DNodup d) {c v : Nat}
    (hm : (c, v) ∈ d) (hmax : ∀ p ∈ d, p.1 ≠ c → p.2 < v) :
    ∃ rest, sort_dictonary d = (c, v) :: rest := by
  have hperm := sort_dictonary_perm d
  have hmem : (c, v) ∈ sort_dictonary d := hperm.mem_iff.mpr hm
  cases hs : sort_dictonary d with
  | nil => rw [hs] at hmem; simp at hmem
  | cons q rest =>
      rw [hs] at hmem hperm
      have hq : q ∈ d := hperm.mem_iff.mp (List.mem_cons_self q rest)
      have hpair := sort_dictonary_pairwise d
      rw [hs] at hpair
      have hv : v ≤ q.2 := by
        rcases List.mem_cons.mp hmem with he | he
        · rw [← he]
        · exact (List.pairwise_cons.mp hpair).1 (c, v) he
      have hqc : q.1 = c := by
        by_contra hne
        exact absurd (lt_of_lt_of_le (hmax q hq hne) hv) (lt_irrefl _)
      have hqv : q = (c, v) := by
        have h1 : dget d c = some v := dget_eq_of_mem hnd hm
        have h2 : dget d q.1 = some q.2 := dget_val_of_mem hnd hq
        rw [hqc, h1] at h2
        cases q
        simp_all
      exact ⟨rest, by rw [← hqv]⟩

/-! ### Fold lemmas for the scoring loops -/

theorem dget_line_assign (possible_moves line : List Nat) (cnt : Nat) (acc : PyDict) (a : Nat) :
    dget (line_assign possible_moves line cnt acc) a
      = if a ∈ possible_moves ∧ a ∈ line then some cnt else dget acc a := by
  induction possible_moves generalizing acc with
  | nil => simp [line_assign]
  | cons m ms ih =>
      have hstep : line_assign (m :: ms) line cnt acc
          = line_assign ms line cnt (if m ∈ line then dinsert acc m cnt else acc) := rfl
      rw [hstep, ih]
      by_cases hm : m ∈ line <;> by_cases ham : a = m <;>
        by_cases hms : a ∈ ms <;> by_cases hal : a ∈ line <;>
        simp_all [dget_dinsert, List.mem_cons]

theorem DNodup_line_assign (possible_moves line : List Nat) (cnt : Nat) {acc : PyDict}
    (h : DNodup acc) : DNodup (line_assign possible_moves line cnt acc) := by
  induction possible_moves generalizing acc with
  | nil => exact h
  | cons m ms ih =>
      have hstep : line_assign (m :: ms) line cnt acc
          = line_assign ms line cnt (if m ∈ line then dinsert acc m cnt else acc) := rfl
      rw [hstep]
      by_cases hm : m ∈ line
      · rw [if_pos hm]
        exact ih (DNodup_dinsert h m cnt)
      · rw [if_neg hm]
        exact ih h

theorem dget_lines_assign_aux (sorted_fields : PyDict) (all_moves : List (List Nat))
    (possible_moves : List Nat) (acc : PyDict) (a rdx : Nat)
    (hnd : DNodup sorted_fields)
    (hmem_iff : ∀ r, a ∈ all_moves.getD r [] ↔ r = rdx) (ha : a ∈ possible_moves) :
    dget (sorted_fields.foldl
        (fun best_moves rc => line_assign possible_moves (all_moves.getD rc.1 []) rc.2 best_moves)
        acc) a
      = (dget sorted_fields rdx).elim (dget acc a) some := by
  induction sorted_fields generalizing acc with
  | nil => simp [dget_nil]
  | cons rc sf ih =>
      have hnd' : DNodup sf := (List.nodup_cons.mp hnd).2
      have hstep : ((rc :: sf).foldl
            (fun best_moves rc =>
              line_assign possible_moves (all_moves.getD rc.1 []) rc.2 best_moves) acc)
          = (sf.foldl
              (fun best_moves rc =>
                line_assign possible_moves (all_moves.getD rc.1 []) rc.2 best_moves)
              (line_assign possible_moves (all_moves.getD rc.1 []) rc.2 acc)) := rfl
      rw [hstep, ih _ hnd', dget_line_assign, dget_cons]
      by_cases hr : rc.1 = rdx
      · have h1 : a ∈ possible_moves ∧ a ∈ all_moves.getD rc.1 [] :=
          ⟨ha, (hmem_iff rc.1).mpr hr⟩
        have h2 : dget sf rdx = none := by
          rw [dget_eq_none_iff]
          intro hmem
          exact (List.nodup_cons.mp hnd).1 (hr ▸ hmem)
        rw [if_pos h1, if_pos hr, h2]
        simp
      · have h1 : ¬(a ∈ possible_moves ∧ a ∈ all_moves.getD rc.1 []) := by
          intro hc
          exact hr ((hmem_iff rc.1).mp hc.2)
        rw [if_neg h1, if_neg hr]

theorem dget_lines_assign (sorted_fields : PyDict) (all_moves : List (List Nat))
    (possible_moves : List Nat) (a rdx : Nat)
    (hnd : DNodup sorted_fields)
    (hmem_iff : ∀ r, a ∈ all_moves.getD r [] ↔ r = rdx) (ha : a ∈ possible_moves) :
    dget (lines_assign all_moves possible_moves sorted_fields) a = dget sorted_fields rdx := by
  unfold lines_assign
  rw [dget_lines_assign_aux sorted_fields all_moves possible_moves [] a rdx hnd hmem_iff ha]
  cases dget sorted_fields rdx <;> simp [dget_nil]

theorem dget_lines_assign_none_aux (sorted_fields : PyDict) (all_moves : List (List Nat))
    (possible_moves : List Nat) (acc : PyDict) (a : Nat)
    (h : ∀ rc ∈ sorted_fields, ¬(a ∈ possible_moves ∧ a ∈ all_moves.getD rc.1 [])) :
    dget (sorted_fields.foldl
        (fun best_moves rc => line_assign possible_moves (all_moves.getD rc.1 []) rc.2 best_moves)
        acc) a
      = dget acc a := by
  induction sorted_fields generalizing acc with
  | nil => rfl
  | cons rc sf ih =>
      have hstep : ((rc :: sf).foldl
            (fun best_moves rc =>
              line_assign possible_moves (all_moves.getD rc.1 []) rc.2 best_moves) acc)
          = (sf.foldl
              (fun best_moves rc =>
                line_assign possible_moves (all_moves.getD rc.1 []) rc.2 best_moves)
              (line_assign possible_moves (all_moves.getD rc.1 []) rc.2 acc)) := rfl
      rw [hstep, ih _ (fun p hp => h p (List.mem_cons_of_mem rc hp)), dget_line_assign,
        if_neg (h rc (List.mem_cons_self rc sf))]

theorem dget_lines_assign_none (sorted_fields : PyDict) (all_moves : List (List Nat))
    (possible_moves : List Nat) (a : Nat)
    (h : ∀ rc ∈ sorted_fields, ¬(a ∈ possible_moves ∧ a ∈ all_moves.getD rc.1 [])) :
    dget (lines_assign all_moves possible_moves sorted_fields) a = none := by
  unfold lines_assign
  rw [dget_lines_assign_none_aux sorted_fields all_moves possible_moves [] a h, dget_nil]

theorem DNodup_nil : DNodup [] := List.nodup_nil

theorem DNodup_lines_assign (sorted_fields : PyDict) (all_moves : List (List Nat))
    (possible_moves : List Nat) :
    DNodup (lines_assign all_moves possible_moves sorted_fields) := by
  unfold lines_assign
  generalize hacc : ([] : PyDict) = acc
  have h : DNodup acc := hacc ▸ DNodup_nil
  clear hacc
  induction sorted_fields generalizing acc with
  | nil => exact h
  | cons rc sf ih => exact ih _ (DNodup_line_assign _ _ _ h)

/-! ### Lemmas on the merging loop -/

theorem dkeys_append (A B : PyDict) : dkeys (A ++ B) = dkeys A ++ dkeys B :=
  List.map_append Prod.fst A B

theorem dget_merge_fold_notmem (l : PyDict) (acc : PyDict) (a : Nat) (h : a ∉ dkeys l) :
    dget (l.foldl merge_step acc) a = dget acc a := by
  induction l generalizing acc with
  | nil => rfl
  | cons kv l' ih =>
      have h1 : a ≠ kv.1 := by
        intro he
        exact h (by simp [dkeys_cons, he])
      have h2 : a ∉ dkeys l' := fun hc => h (by simp [dkeys_cons, hc])
      rw [List.foldl_cons, ih _ h2]
      unfold merge_step
      rw [dget_dinsert, if_neg h1]

theorem dgetD_merge_fold (l : PyDict) (acc : PyDict) (a : Nat) :
    dgetD (l.foldl merge_step acc) a 0
      = l.foldl (fun v kv => if kv.1 = a then max v kv.2 else v) (dgetD acc a 0) := by
  induction l generalizing acc with
  | nil => rfl
  | cons kv l' ih =>
      rw [List.foldl_cons, List.foldl_cons, ih]
      have hstep : dgetD (merge_step acc kv) a 0
          = if kv.1 = a then max (dgetD acc a 0) kv.2 else dgetD acc a 0 := by
        unfold merge_step dgetD
        rw [dget_dinsert]
        by_cases h : kv.1 = a
        · rw [if_pos h, if_pos h.symm, h]
          simp
        · rw [if_neg h, if_neg (fun he => h he.symm)]
      rw [hstep]

theorem mem_dkeys_merge_fold (l : PyDict) (acc : PyDict) (a : Nat) :
    a ∈ dkeys (l.foldl merge_step acc) ↔ a ∈ dkeys acc ∨ a ∈ dkeys l := by
  induction l generalizing acc with
  | nil => simp [dkeys_nil]
  | cons kv l' ih =>
      rw [List.foldl_cons, ih]
      unfold merge_step
      rw [mem_dkeys_dinsert]
      simp [dkeys_cons]
      tauto

theorem DNodup_merge_fold (l : PyDict) {acc : PyDict} (h : DNodup acc) :
    DNodup (l.foldl merge_step acc) := by
  induction l generalizing acc with
  | nil => exact h
  | cons kv l' ih => exact ih (DNodup_dinsert h _ _)

theorem val_fold_nomem (l : PyDict) (a : Nat) (seed : Nat) (h : a ∉ dkeys l) :
    l.foldl (fun v kv => if kv.1 = a then max v kv.2 else v) seed = seed := by
  induction l generalizing seed with
  | nil => rfl
  | cons kv l' ih =>
      have h1 : kv.1 ≠ a := by
        intro he
        exact h (by simp [dkeys_cons, he])
      rw [List.foldl_cons, if_neg h1, ih _ (fun hc => h (by simp [dkeys_cons, hc]))]

theorem val_fold_nodup (l : PyDict) (a : Nat) (hnd : DNodup l) (seed : Nat) :
    l.foldl (fun v kv => if kv.1 = a then max v kv.2 else v) seed
      = max seed (dgetD l a 0) := by
  induction l generalizing seed with
  | nil => simp [dgetD, dget_nil]
  | cons kv l' ih =>
      rw [List.foldl_cons]
      by_cases h : kv.1 = a
      · have h2 : a ∉ dkeys l' := fun hc => (List.nodup_cons.mp hnd).1 (h ▸ hc)
        rw [if_pos h, val_fold_nomem _ _ _ h2]
        unfold dgetD
        rw [dget_cons, if_pos h]
        simp
      · rw [if_neg h, ih (List.nodup_cons.mp hnd).2]
        unfold dgetD
        rw [dget_cons, if_neg h]

/-- The value of the merged dict at any key is the max of the two values,
missing keys reading as 0. -/
theorem dget_get_sorted_moves (A B : PyDict) (hA : DNodup A) (hB : DNodup B) (a : Nat) :
    dget (get_sorted_moves A B) a
      = if a ∈ dkeys A ∨ a ∈ dkeys B then some (max (dgetD A a 0) (dgetD B a 0)) else none := by
  unfold get_sorted_moves
  rw [dget_sort_dictonary _ (DNodup_merge_fold _ DNodup_nil)]
  have hval : dgetD ((A ++ B).foldl merge_step []) a 0 = max (dgetD A a 0) (dgetD B a 0) := by
    rw [dgetD_merge_fold, List.foldl_append, val_fold_nodup A a hA, val_fold_nodup B a hB]
    simp [dgetD, dget_nil, Nat.max_assoc]
  by_cases h : a ∈ dkeys A ∨ a ∈ dkeys B
  · rw [if_pos h]
    have hmem : a ∈ dkeys ((A ++ B).foldl merge_step []) := by
      rw [mem_dkeys_merge_fold, dkeys_append]
      right
      rw [List.mem_append]
      exact h
    have hsome := (dget_isSome_iff _ a).mpr hmem
    cases hw : dget ((A ++ B).foldl merge_step []) a with
    | none => rw [hw] at hsome; simp at hsome
    | some w =>
        rw [← hval]
        unfold dgetD
        rw [hw]
        simp
  · rw [if_neg h, dget_eq_none_iff, mem_dkeys_merge_fold, dkeys_append]
    simp only [dkeys_nil, List.mem_append, List.not_mem_nil, false_or]
    push_neg at h ⊢
    exact h

theorem mem_dkeys_get_sorted_moves (A B : PyDict) (hA : DNodup A) (hB : DNodup B) (a : Nat) :
    a ∈ dkeys (get_sorted_moves A B) ↔ a ∈ dkeys A ∨ a ∈ dkeys B := by
  rw [← dget_isSome_iff, dget_get_sorted_moves A B hA hB]
  by_cases h : a ∈ dkeys A ∨ a ∈ dkeys B <;> simp [h]

theorem DNodup_get_sorted_moves (A B : PyDict) : DNodup (get_sorted_moves A B) := by
  unfold get_sorted_moves
  exact DNodup_sort_dictonary (DNodup_merge_fold _ DNodup_nil)

/-! ### Board lemmas -/

theorem mem_range'_one_nine (m : Nat) : m ∈ List.range' 1 9 ↔ 1 ≤ m ∧ m ≤ 9 := by
  rw [List.mem_range']
  constructor
  · rintro ⟨i, hi, rfl⟩
    omega
  · rintro ⟨h1, h9⟩
    exact ⟨m - 1, by omega, by omega⟩

theorem row_length {b : List (List String)} (hwf : WF b) {ri : Nat} (h : ri < 3) :
    ((b.get? ri).getD []).length = 3 := by
  obtain ⟨hlen, hrows⟩ := hwf
  cases hr : b.get? ri with
  | none =>
      rw [List.get?_eq_none] at hr
      omega
  | some row =>
      simpa using hrows row (List.get?_mem hr)

/-- The moves collected by `get_player_fields` are exactly the moves in 1–9
whose cell holds the symbol. -/
theorem mem_get_player_fields (b : List (List String)) (s : String) (hwf : WF b) (m : Nat) :
    m ∈ get_player_fields b s ↔ 1 ≤ m ∧ m ≤ 9 ∧ cellAtMove b m = s := by
  unfold get_player_fields
  rw [List.mem_flatMap]
  constructor
  · rintro ⟨ri, hri, hm⟩
    rw [List.mem_range, hwf.1] at hri
    rw [List.mem_filterMap] at hm
    obtain ⟨ci, hci, hcell⟩ := hm
    rw [List.mem_range, row_length hwf hri] at hci
    by_cases hc : cellD b ri ci = s
    · rw [if_pos hc] at hcell
      have hm2 : ri + 2 * ri + ci + 1 = m := by injection hcell
      refine ⟨by omega, by omega, ?_⟩
      unfold cellAtMove
      have hdiv : (m - 1) / 3 = ri := by omega
      have hmod : (m - 1) % 3 = ci := by omega
      rw [hdiv, hmod, hc]
    · rw [if_neg hc] at hcell
      cases hcell
  · rintro ⟨h1, h9, hc⟩
    refine ⟨(m - 1) / 3, ?_, ?_⟩
    · rw [List.mem_range, hwf.1]
      omega
    · rw [List.mem_filterMap]
      refine ⟨(m - 1) % 3, ?_, ?_⟩
      · rw [List.mem_range, row_length hwf (by omega : (m - 1) / 3 < 3)]
        omega
      · unfold cellAtMove at hc
        rw [if_pos hc]
        have : (m - 1) / 3 + 2 * ((m - 1) / 3) + (m - 1) % 3 + 1 = m := by omega
        rw [this]

/-- The possible moves are exactly the moves in 1–9 whose cell holds neither
symbol. -/
theorem mem_get_possible_moves (b : List (List String)) (hwf : WF b) (m : Nat) :
    m ∈ get_possible_moves b
      ↔ 1 ≤ m ∧ m ≤ 9 ∧ cellAtMove b m ≠ "X" ∧ cellAtMove b m ≠ "O" := by
  unfold get_possible_moves
  simp only [List.mem_filter, decide_eq_true_eq, mem_range'_one_nine,
    mem_get_player_fields b "X" hwf m, mem_get_player_fields b "O" hwf m]
  constructor
  · rintro ⟨⟨h1, h9⟩, hx, ho⟩
    exact ⟨h1, h9, fun hc => hx ⟨h1, h9, hc⟩, fun hc => ho ⟨h1, h9, hc⟩⟩
  · rintro ⟨h1, h9, hx, ho⟩
    exact ⟨⟨h1, h9⟩, fun hc => hx hc.2.2, fun hc => ho hc.2.2⟩

theorem possible_bounds {b : List (List String)} {m : Nat} (h : m ∈ get_possible_moves b) :
    1 ≤ m ∧ m ≤ 9 := by
  unfold get_possible_moves at h
  rw [List.mem_filter] at h
  exact (mem_range'_one_nine m).mp h.1

theorem possible_nodup (b : List (List String)) : (get_possible_moves b).Nodup :=
  List.Nodup.filter _ (List.nodup_range' 1 9)

/-! ### Characterisation of the per-family count dicts -/

theorem DNodup_counts_list (b : List (List String)) (s : String) :
    DNodup ((List.range b.length).map (fun row_index =>
      (row_index,
        (((b.get? row_index).getD []).filter (fun c => c == s)).length))) := by
  unfold DNodup dkeys
  rw [List.map_map]
  have : (Prod.fst ∘ fun row_index =>
      (row_index, (((b.get? row_index).getD []).filter (fun c => c == s)).length))
      = fun row_index => row_index := rfl
  rw [this, List.map_id']
  exact List.nodup_range b.length

theorem DNodup_get_horizontal_counts (b : List (List String)) (s : String) :
    DNodup (get_horizontal_counts b s) := by
  unfold get_horizontal_counts
  exact DNodup_sort_dictonary (DNodup_counts_list b s)

theorem dget_get_horizontal_counts (b : List (List String)) (s : String) (r : Nat)
    (hr : r < b.length) :
    dget (get_horizontal_counts b s) r
      = some ((((b.get? r).getD []).filter (fun c => c == s)).length) := by
  unfold get_horizontal_counts
  rw [dget_sort_dictonary _ (DNodup_counts_list b s)]
  apply dget_eq_of_mem (DNodup_counts_list b s)
  exact List.mem_map_of_mem _ (List.mem_range.mpr hr)

/-! ### Transposition lemmas -/

theorem headD_length {b : List (List String)} (hwf : WF b) : (b.headD []).length = 3 := by
  obtain ⟨hlen, hrows⟩ := hwf
  cases b with
  | nil => simp at hlen
  | cons r0 rest => exact hrows r0 (List.mem_cons_self r0 rest)

theorem transposed_length {b : List (List String)} (hwf : WF b) :
    (transposed b).length = 3 := by
  unfold transposed
  rw [List.length_map, List.length_range, headD_length hwf]

theorem transposed_get? (b : List (List String)) (hwf : WF b) (r : Nat) (hr : r < 3) :
    (transposed b).get? r = some [cellD b 0 r, cellD b 1 r, cellD b 2 r] := by
  unfold transposed
  rw [headD_length hwf, List.get?_map, List.get?_range hr, hwf.1]
  rfl

theorem WF_transposed {b : List (List String)} (hwf : WF b) : WF (transposed b) := by
  refine ⟨transposed_length hwf, ?_⟩
  intro row hrow
  unfold transposed at hrow
  rw [List.mem_map] at hrow
  obtain ⟨i, hi, hrow⟩ := hrow
  rw [← hrow, List.length_map, List.length_range, hwf.1]

/-- The cells of the transposed board are the transposed cells. -/
theorem cellD_transposed (b : List (List String)) (hwf : WF b) (i j : Nat)
    (hi : i < 3) (hj : j < 3) :
    cellD (transposed b) i j = cellD b j i := by
  unfold cellD
  rw [transposed_get? b hwf i hi]
  interval_cases j <;> rfl

/-! ### Count dicts versus line counts -/

theorem length_filter_three {α β : Type} (p : α → Bool) (q : β → Bool) (x y z : α) (a b c : β)
    (h1 : p x = q a) (h2 : p y = q b) (h3 : p z = q c) :
    ([x, y, z].filter p).length = ([a, b, c].filter q).length := by
  cases hx : p x <;> cases hy : p y <;> cases hz : p z <;>
    simp [List.filter, hx, hy, hz, ← h1, ← h2, ← h3]

theorem row_filter_eq_lineCount (b : List (List String)) (s : String) (hwf : WF b)
    (r : Nat) (hr : r < 3) :
    (((b.get? r).getD []).filter (fun c => c == s)).length
      = lineCount b s (allLines.getD r []) := by
  have hlen : ((b.get? r).getD []).length = 3 := row_length hwf hr
  cases hget : b.get? r with
  | none =>
      rw [hget] at hlen
      simp at hlen
  | some row =>
      rw [hget] at hlen
      simp only [Option.getD_some] at hlen
      obtain ⟨x, y, z, hxyz⟩ := List.length_eq_three.mp hlen
      subst hxyz
      rw [List.get?_eq_getElem?] at hget
      simp only [Option.getD_some]
      unfold lineCount
      interval_cases r <;>
        exact length_filter_three _ _ x y z _ _ _
          (by simp [cellAtMove, cellD, hget]) (by simp [cellAtMove, cellD, hget])
          (by simp [cellAtMove, cellD, hget])

theorem col_filter_eq_lineCount (b : List (List String)) (s : String) (hwf : WF b)
    (r : Nat) (hr : r < 3) :
    ((((transposed b).get? r).getD []).filter (fun c => c == s)).length
      = lineCount b s (allLines.getD (3 + r) []) := by
  rw [transposed_get? b hwf r hr]
  simp only [Option.getD_some]
  unfold lineCount
  interval_cases r <;>
    exact length_filter_three _ _ _ _ _ _ _ _
      (by simp [cellAtMove]) (by simp [cellAtMove]) (by simp [cellAtMove])

theorem diag1_count_eq (b : List (List String)) (s : String) :
    ((List.range 3).filter (fun i => cellD b i i == s)).length = lineCount b s [1, 5, 9] := by
  have h3 : List.range 3 = [0, 1, 2] := rfl
  rw [h3]
  unfold lineCount
  exact length_filter_three _ _ _ _ _ _ _ _
    (by simp [cellAtMove]) (by simp [cellAtMove]) (by simp [cellAtMove])

theorem diag2_count_eq (b : List (List String)) (s : String) :
    ((List.range 3).filter (fun i => cellD b i (2 - i) == s)).length
      = lineCount b s [3, 5, 7] := by
  have h3 : List.range 3 = [0, 1, 2] := rfl
  rw [h3]
  unfold lineCount
  exact length_filter_three _ _ _ _ _ _ _ _
    (by simp [cellAtMove]) (by simp [cellAtMove]) (by simp [cellAtMove])

theorem dget_hori_counts (b : List (List String)) (s : String) (hwf : WF b) (r : Nat)
    (hr : r < 3) :
    dget (get_horizontal_counts b s) r = some (lineCount b s (allLines.getD r [])) := by
  rw [dget_get_horizontal_counts b s r (by rw [hwf.1]; exact hr),
    row_filter_eq_lineCount b s hwf r hr]

theorem dget_verti_counts (b : List (List String)) (s : String) (hwf : WF b) (r : Nat)
    (hr : r < 3) :
    dget (get_vertical_counts b s) r = some (lineCount b s (allLines.getD (3 + r) [])) := by
  unfold get_vertical_counts
  rw [dget_get_horizontal_counts (transposed b) s r (by rw [transposed_length hwf]; exact hr),
    col_filter_eq_lineCount b s hwf r hr]

theorem get_diagonal_counts_eq (b : List (List String)) (s : String) :
    get_diagonal_counts b s = [(0, lineCount b s [1, 5, 9]), (1, lineCount b s [3, 5, 7])] := by
  unfold get_diagonal_counts
  rw [diag1_count_eq, diag2_count_eq]

/-! ### The move grids of the line families -/

theorem transposed_rows_grid :
    transposed [[1, 2, 3], [4, 5, 6], [7, 8, 9]] = [[1, 4, 7], [2, 5, 8], [3, 6, 9]] := rfl

theorem rows_grid_mem_iff (a : Nat) (h1 : 1 ≤ a) (h9 : a ≤ 9) :
    ∀ r, (a ∈ ([[1, 2, 3], [4, 5, 6], [7, 8, 9]] : List (List Nat)).getD r []
      ↔ r = (a - 1) / 3) := by
  intro r
  match r with
  | 0 => interval_cases a <;> decide
  | 1 => interval_cases a <;> decide
  | 2 => interval_cases a <;> decide
  | (n + 3) =>
      constructor
      · intro h
        simp [List.getD] at h
      · intro h
        omega

theorem cols_grid_mem_iff (a : Nat) (h1 : 1 ≤ a) (h9 : a ≤ 9) :
    ∀ r, (a ∈ (transposed [[1, 2, 3], [4, 5, 6], [7, 8, 9]]).getD r []
      ↔ r = (a - 1) % 3) := by
  rw [transposed_rows_grid]
  intro r
  match r with
  | 0 => interval_cases a <;> decide
  | 1 => interval_cases a <;> decide
  | 2 => interval_cases a <;> decide
  | (n + 3) =>
      constructor
      · intro h
        simp [List.getD] at h
      · intro h
        omega

/-! ### Value characterisation of the three family maps -/

theorem dget_hori_map (b : List (List String)) (s : String) (hwf : WF b) (m : Nat)
    (hm : m ∈ get_possible_moves b) :
    dget (get_optimized_straight_moves (get_horizontal_counts b s) (get_possible_moves b) true) m
      = some (lineCount b s (rowLineOf m)) := by
  obtain ⟨h1, h9⟩ := possible_bounds hm
  have hform : get_optimized_straight_moves (get_horizontal_counts b s) (get_possible_moves b) true
      = lines_assign [[1, 2, 3], [4, 5, 6], [7, 8, 9]] (get_possible_moves b)
        (get_horizontal_counts b s) := rfl
  rw [hform,
    dget_lines_assign _ _ _ m ((m - 1) / 3) (DNodup_get_horizontal_counts b s)
      (rows_grid_mem_iff m h1 h9) hm]
  exact dget_hori_counts b s hwf _ (by omega)

theorem dget_verti_map (b : List (List String)) (s : String) (hwf : WF b) (m : Nat)
    (hm : m ∈ get_possible_moves b) :
    dget (get_optimized_straight_moves (get_vertical_counts b s) (get_possible_moves b) false) m
      = some (lineCount b s (colLineOf m)) := by
  obtain ⟨h1, h9⟩ := possible_bounds hm
  have hform : get_optimized_straight_moves (get_vertical_counts b s) (get_possible_moves b) false
      = lines_assign (transposed [[1, 2, 3], [4, 5, 6], [7, 8, 9]]) (get_possible_moves b)
        (get_vertical_counts b s) := rfl
  have hnd : DNodup (get_vertical_counts b s) := DNodup_get_horizontal_counts (transposed b) s
  rw [hform,
    dget_lines_assign _ _ _ m ((m - 1) % 3) hnd (cols_grid_mem_iff m h1 h9) hm]
  exact dget_verti_counts b s hwf _ (by omega)

theorem dget_diag_map (b : List (List String)) (s : String) (m : Nat)
    (hm : m ∈ get_possible_moves b) :
    dget (get_optimized_diagonal_moves (get_diagonal_counts b s) (get_possible_moves b)) m
      = (if m ∈ [3, 5, 7] then some (lineCount b s [3, 5, 7])
         else if m ∈ [1, 9] then some (lineCount b s [1, 5, 9])
         else none) := by
  unfold get_optimized_diagonal_moves
  rw [dget_sort_dictonary _ (DNodup_lines_assign _ _ _), get_diagonal_counts_eq]
  have hstep : lines_assign [[1, 5, 9], [3, 5, 7]] (get_possible_moves b)
        [(0, lineCount b s [1, 5, 9]), (1, lineCount b s [3, 5, 7])]
      = line_assign (get_possible_moves b) [3, 5, 7] (lineCount b s [3, 5, 7])
          (line_assign (get_possible_moves b) [1, 5, 9] (lineCount b s [1, 5, 9]) []) := rfl
  rw [hstep, dget_line_assign, dget_line_assign, dget_nil]
  by_cases h3 : m ∈ ([3, 5, 7] : List Nat)
  · rw [if_pos ⟨hm, h3⟩, if_pos h3]
  · rw [if_neg (fun hc => h3 hc.2), if_neg h3]
    by_cases h19 : m ∈ ([1, 9] : List Nat)
    · have h159 : m ∈ ([1, 5, 9] : List Nat) := by
        simp only [List.mem_cons, List.not_mem_nil, or_false] at h19 ⊢
        tauto
      rw [if_pos ⟨hm, h159⟩, if_pos h19]
    · have h159 : m ∉ ([1, 5, 9] : List Nat) := by
        simp only [List.mem_cons, List.not_mem_nil, or_false] at h19 h3 ⊢
        tauto
      rw [if_neg (fun hc => h159 hc.2), if_neg h19]

/-! ### The score the engine actually assigns to an empty move -/

theorem DNodup_diag_map (sorted_fields : PyDict) (possible_moves : List Nat) :
    DNodup (get_optimized_diagonal_moves sorted_fields possible_moves) := by
  unfold get_optimized_diagonal_moves
  exact DNodup_sort_dictonary (DNodup_lines_assign _ _ _)

theorem DNodup_straight_map (sorted_fields : PyDict) (possible_moves : List Nat)
    (horizontal : Bool) :
    DNodup (get_optimized_straight_moves sorted_fields possible_moves horizontal) := by
  unfold get_optimized_straight_moves
  exact DNodup_lines_assign _ _ _

theorem DNodup_calc (b : List (List String)) (s : String) :
    DNodup (calc_optimized_move b s) := by
  unfold calc_optimized_move
  exact DNodup_get_sorted_moves _ _

/-- On an empty move the final score map of `calc_optimized_move` holds
exactly the max of the three family contributions. -/
theorem dget_calc (b : List (List String)) (s : String) (hwf : WF b) (m : Nat)
    (hm : m ∈ get_possible_moves b) :
    dget (calc_optimized_move b s) m = some (moveScore b s m) := by
  have hdiag := dget_diag_map b s m hm
  have hverti := dget_verti_map b s hwf m hm
  have hhori := dget_hori_map b s hwf m hm
  have hndd : DNodup (get_optimized_diagonal_moves (get_diagonal_counts b s)
      (get_possible_moves b)) := DNodup_diag_map _ _
  have hndv : DNodup (get_optimized_straight_moves (get_vertical_counts b s)
      (get_possible_moves b) false) := DNodup_straight_map _ _ _
  have hndh : DNodup (get_optimized_straight_moves (get_horizontal_counts b s)
      (get_possible_moves b) true) := DNodup_straight_map _ _ _
  have hform : calc_optimized_move b s
      = get_sorted_moves
          (get_sorted_moves
            (get_optimized_diagonal_moves (get_diagonal_counts b s) (get_possible_moves b))
            (get_optimized_straight_moves (get_vertical_counts b s) (get_possible_moves b) false))
          (get_optimized_straight_moves (get_horizontal_counts b s) (get_possible_moves b) true)
      := rfl
  rw [hform]
  have hvmem : m ∈ dkeys (get_optimized_straight_moves (get_vertical_counts b s)
      (get_possible_moves b) false) := by
    rw [← dget_isSome_iff, hverti]
    rfl
  have hinner := dget_get_sorted_moves _ _ hndd hndv m
  rw [if_pos (Or.inr hvmem)] at hinner
  have houter := dget_get_sorted_moves
    (get_sorted_moves
      (get_optimized_diagonal_moves (get_diagonal_counts b s) (get_possible_moves b))
      (get_optimized_straight_moves (get_vertical_counts b s) (get_possible_moves b) false))
    (get_optimized_straight_moves (get_horizontal_counts b s) (get_possible_moves b) true)
    (DNodup_get_sorted_moves _ _) hndh m
  have himem : m ∈ dkeys (get_sorted_moves
      (get_optimized_diagonal_moves (get_diagonal_counts b s) (get_possible_moves b))
      (get_optimized_straight_moves (get_vertical_counts b s) (get_possible_moves b) false)) := by
    rw [← dget_isSome_iff, hinner]
    rfl
  rw [if_pos (Or.inl himem)] at houter
  rw [houter]
  have hval : dgetD (get_sorted_moves
      (get_optimized_diagonal_moves (get_diagonal_counts b s) (get_possible_moves b))
      (get_optimized_straight_moves (get_vertical_counts b s) (get_possible_moves b) false)) m 0
      = max (diagAssigned b s m) (lineCount b s (colLineOf m)) := by
    unfold dgetD
    rw [hinner]
    have hd : dgetD (get_optimized_diagonal_moves (get_diagonal_counts b s)
        (get_possible_moves b)) m 0 = diagAssigned b s m := by
      unfold dgetD diagAssigned
      rw [hdiag]
      by_cases h3 : m ∈ ([3, 5, 7] : List Nat)
      · rw [if_pos h3, if_pos h3]
        rfl
      · rw [if_neg h3, if_neg h3]
        by_cases h19 : m ∈ ([1, 9] : List Nat)
        · rw [if_pos h19, if_pos h19]
          rfl
        · rw [if_neg h19, if_neg h19]
          rfl
    have hv : dgetD (get_optimized_straight_moves (get_vertical_counts b s)
        (get_possible_moves b) false) m 0 = lineCount b s (colLineOf m) := by
      unfold dgetD
      rw [hverti]
      rfl
    rw [hd, hv]
    rfl
  rw [hval]
  have hh : dgetD (get_optimized_straight_moves (get_horizontal_counts b s)
      (get_possible_moves b) true) m 0 = lineCount b s (rowLineOf m) := by
    unfold dgetD
    rw [hhori]
    rfl
  rw [hh]
  rfl

/-- Moves that are not possible receive no score at all. -/
theorem dget_calc_none (b : List (List String)) (s : String) (m : Nat)
    (hm : m ∉ get_possible_moves b) :
    dget (calc_optimized_move b s) m = none := by
  have hnone : ∀ (sf : PyDict) (grid : List (List Nat)),
      dget (lines_assign grid (get_possible_moves b) sf) m = none := by
    intro sf grid
    exact dget_lines_assign_none sf grid (get_possible_moves b) m
      (fun rc _ hc => hm hc.1)
  have hdiag : dget (get_optimized_diagonal_moves (get_diagonal_counts b s)
      (get_possible_moves b)) m = none := by
    unfold get_optimized_diagonal_moves
    rw [dget_sort_dictonary _ (DNodup_lines_assign _ _ _)]
    exact hnone _ _
  have hverti : dget (get_optimized_straight_moves (get_vertical_counts b s)
      (get_possible_moves b) false) m = none := hnone _ _
  have hhori : dget (get_optimized_straight_moves (get_horizontal_counts b s)
      (get_possible_moves b) true) m = none := hnone _ _
  have hform : calc_optimized_move b s
      = get_sorted_moves
          (get_sorted_moves
            (get_optimized_diagonal_moves (get_diagonal_counts b s) (get_possible_moves b))
            (get_optimized_straight_moves (get_vertical_counts b s) (get_possible_moves b) false))
          (get_optimized_straight_moves (get_horizontal_counts b s) (get_possible_moves b) true)
      := rfl
  have hndd := DNodup_diag_map (get_diagonal_counts b s) (get_possible_moves b)
  have hndv := DNodup_straight_map (get_vertical_counts b s) (get_possible_moves b) false
  have hndh := DNodup_straight_map (get_horizontal_counts b s) (get_possible_moves b) true
  rw [hform, dget_get_sorted_moves _ _ (DNodup_get_sorted_moves _ _) hndh, if_neg]
  rw [mem_dkeys_get_sorted_moves _ _ hndd hndv]
  push_neg
  rw [dget_eq_none_iff] at hdiag hverti hhori
  exact ⟨⟨hdiag, hverti⟩, hhori⟩

/-- The key set of the final score map is exactly the set of possible moves. -/
theorem mem_dkeys_calc (b : List (List String)) (s : String) (hwf : WF b) (m : Nat) :
    m ∈ dkeys (calc_optimized_move b s) ↔ m ∈ get_possible_moves b := by
  constructor
  · intro h
    by_contra hc
    rw [← dget_isSome_iff, dget_calc_none b s m hc] at h
    simp at h
  · intro h
    rw [← dget_isSome_iff, dget_calc b s hwf m h]
    rfl

/-! ### Bounds on line counts and scores -/

theorem allLines_mem_bounds : ∀ L ∈ allLines, L.length = 3 ∧ ∀ x ∈ L, 1 ≤ x ∧ x ≤ 9 := by
  decide

theorem rowLineOf_mem (m : Nat) (h1 : 1 ≤ m) (h9 : m ≤ 9) :
    rowLineOf m ∈ allLines ∧ m ∈ rowLineOf m ∧ (rowLineOf m).length = 3 := by
  interval_cases m <;> decide

theorem colLineOf_mem (m : Nat) (h1 : 1 ≤ m) (h9 : m ≤ 9) :
    colLineOf m ∈ allLines ∧ m ∈ colLineOf m ∧ (colLineOf m).length = 3 := by
  interval_cases m <;> decide

/-- A line with a cell that does not hold the symbol has at most two of them. -/
theorem lineCount_le_two (b : List (List String)) (s : String) {L : List Nat}
    (hlen : L.length = 3) {e : Nat} (he : e ∈ L) (hes : cellAtMove b e ≠ s) :
    lineCount b s L ≤ 2 := by
  have hlt : (L.filter (fun m => cellAtMove b m == s)).length < L.length := by
    apply List.length_filter_lt_length_iff_exists.mpr
    exact ⟨e, he, by simp [hes]⟩
  unfold lineCount
  omega

/-- In a line with exactly two stones of the symbol, any two cells not holding
the symbol coincide. -/
theorem eq_of_two_count {b : List (List String)} {s : String} {L : List Nat}
    (hlen : L.length = 3) (hcnt : lineCount b s L = 2) {c e : Nat}
    (hc : c ∈ L) (he : e ∈ L) (hcs : cellAtMove b c ≠ s) (hes : cellAtMove b e ≠ s) :
    e = c := by
  obtain ⟨p1, p2, p3, hL⟩ := List.length_eq_three.mp hlen
  subst hL
  unfold lineCount at hcnt
  simp only [List.mem_cons, List.not_mem_nil, or_false] at hc he
  cases h1 : cellAtMove b p1 == s <;> cases h2 : cellAtMove b p2 == s <;>
    cases h3 : cellAtMove b p3 == s <;>
    simp only [List.filter, h1, h2, h3, List.length_cons, List.length_nil] at hcnt <;>
    first
    | omega
    | (simp only [beq_iff_eq, beq_eq_false_iff_ne] at h1 h2 h3
       rcases hc with rfl | rfl | rfl <;> rcases he with rfl | rfl | rfl <;>
         first
         | rfl
         | tauto)

/-- Every score component the engine assigns is at most 2 on an empty move. -/
theorem moveScore_le_two (b : List (List String)) (s : String) (hwf : WF b) (m : Nat)
    (hm : m ∈ get_possible_moves b) (hs : s = "X" ∨ s = "O") :
    moveScore b s m ≤ 2 := by
  obtain ⟨h1, h9, hx, ho⟩ := (mem_get_possible_moves b hwf m).mp hm
  have hms : cellAtMove b m ≠ s := by
    rcases hs with rfl | rfl
    · exact hx
    · exact ho
  have hrow := rowLineOf_mem m h1 h9
  have hcol := colLineOf_mem m h1 h9
  have hbrow : lineCount b s (rowLineOf m) ≤ 2 :=
    lineCount_le_two b s hrow.2.2 hrow.2.1 hms
  have hbcol : lineCount b s (colLineOf m) ≤ 2 :=
    lineCount_le_two b s hcol.2.2 hcol.2.1 hms
  have hbdiag : diagAssigned b s m ≤ 2 := by
    unfold diagAssigned
    by_cases h3 : m ∈ ([3, 5, 7] : List Nat)
    · rw [if_pos h3]
      exact lineCount_le_two b s (by decide) h3 hms
    · rw [if_neg h3]
      by_cases h19 : m ∈ ([1, 9] : List Nat)
      · rw [if_pos h19]
        have h159 : m ∈ ([1, 5, 9] : List Nat) := by
          simp only [List.mem_cons, List.not_mem_nil, or_false] at h19 ⊢
          tauto
        exact lineCount_le_two b s (by decide) h159 hms
      · rw [if_neg h19]
        omega
  unfold moveScore
  omega

/-- When every line through an empty move scores at most 1 for the symbol, so
does the whole move score. -/
theorem moveScore_le_one (b : List (List String)) (s : String) (m : Nat)
    (h1 : 1 ≤ m) (h9 : m ≤ 9)
    (hcomp : ∀ L ∈ allLines, m ∈ L → lineCount b s L ≤ 1) :
    moveScore b s m ≤ 1 := by
  have hrow := rowLineOf_mem m h1 h9
  have hcol := colLineOf_mem m h1 h9
  have hbrow : lineCount b s (rowLineOf m) ≤ 1 := hcomp _ hrow.1 hrow.2.1
  have hbcol : lineCount b s (colLineOf m) ≤ 1 := hcomp _ hcol.1 hcol.2.1
  have hbdiag : diagAssigned b s m ≤ 1 := by
    unfold diagAssigned
    by_cases h3 : m ∈ ([3, 5, 7] : List Nat)
    · rw [if_pos h3]
      exact hcomp [3, 5, 7] (by decide) h3
    · rw [if_neg h3]
      by_cases h19 : m ∈ ([1, 9] : List Nat)
      · rw [if_pos h19]
        have h159 : m ∈ ([1, 5, 9] : List Nat) := by
          simp only [List.mem_cons, List.not_mem_nil, or_false] at h19 ⊢
          tauto
        exact hcomp [1, 5, 9] (by decide) h159
      · rw [if_neg h19]
        omega
  unfold moveScore
  omega

/-- When the two-stone line runs through the move (and is not the main
diagonal meeting the centre), the engine's score for the move reaches 2. -/
theorem moveScore_ge_two (b : List (List String)) (s : String) {L : List Nat} {c : Nat}
    (hL : L ∈ allLines) (hcL : c ∈ L) (hcnt : lineCount b s L = 2)
    (hexc : ¬(L = [1, 5, 9] ∧ c = 5)) :
    2 ≤ moveScore b s c := by
  have hrows : L = [1, 2, 3] ∨ L = [4, 5, 6] ∨ L = [7, 8, 9] ∨ L = [1, 4, 7] ∨
      L = [2, 5, 8] ∨ L = [3, 6, 9] ∨ L = [1, 5, 9] ∨ L = [3, 5, 7] := by
    simpa [allLines] using hL
  have hrow_case : ∀ hLr : L ∈ ([[1, 2, 3], [4, 5, 6], [7, 8, 9]] : List (List Nat)),
      rowLineOf c = L := by
    intro hLr
    have : ∀ Lr ∈ ([[1, 2, 3], [4, 5, 6], [7, 8, 9]] : List (List Nat)),
        ∀ x ∈ Lr, rowLineOf x = Lr := by decide
    exact this L hLr c hcL
  have hcol_case : ∀ hLc : L ∈ ([[1, 4, 7], [2, 5, 8], [3, 6, 9]] : List (List Nat)),
      colLineOf c = L := by
    intro hLc
    have : ∀ Lc ∈ ([[1, 4, 7], [2, 5, 8], [3, 6, 9]] : List (List Nat)),
        ∀ x ∈ Lc, colLineOf x = Lc := by decide
    exact this L hLc c hcL
  unfold moveScore
  rcases hrows with rfl | rfl | rfl | rfl | rfl | rfl | rfl | rfl
  · have := hrow_case (by decide)
    rw [this, hcnt]
    omega
  · have := hrow_case (by decide)
    rw [this, hcnt]
    omega
  · have := hrow_case (by decide)
    rw [this, hcnt]
    omega
  · have := hcol_case (by decide)
    rw [this, hcnt]
    omega
  · have := hcol_case (by decide)
    rw [this, hcnt]
    omega
  · have := hcol_case (by decide)
    rw [this, hcnt]
    omega
  · -- main diagonal, c ∈ {1, 9} since c = 5 is excluded
    have hc19 : c = 1 ∨ c = 9 := by
      simp only [List.mem_cons, List.not_mem_nil, or_false] at hcL
      rcases hcL with rfl | rfl | rfl
      · left; rfl
      · exact absurd ⟨rfl, rfl⟩ hexc
      · right; rfl
    have hd : diagAssigned b s c = lineCount b s [1, 5, 9] := by
      rcases hc19 with rfl | rfl <;> simp [diagAssigned]
    rw [hd, hcnt]
    omega
  · -- anti-diagonal: every cell of it takes the anti-diagonal count
    have hd : diagAssigned b s c = lineCount b s [3, 5, 7] := by
      unfold diagAssigned
      rw [if_pos hcL]
    rw [hd, hcnt]
    omega

/-! ### Head of the sorted merged dict -/

/-- If one pair's value strictly dominates every other key of the merged dict,
that pair heads the sorted output. -/
theorem get_sorted_moves_head_unique (A B : PyDict) (c v : Nat)
    (hc : dget (get_sorted_moves A B) c = some v)
    (hlt : ∀ m w, m ≠ c → dget (get_sorted_moves A B) m = some w → w < v) :
    ∃ rest, get_sorted_moves A B = (c, v) :: rest := by
  have hnd : DNodup ((A ++ B).foldl merge_step []) := DNodup_merge_fold _ DNodup_nil
  have hform : get_sorted_moves A B = sort_dictonary ((A ++ B).foldl merge_step []) := rfl
  rw [hform] at hc ⊢
  rw [dget_sort_dictonary _ hnd] at hc
  apply sort_head_unique hnd (mem_of_dget hc)
  intro p hp hne
  have hv := dget_val_of_mem hnd hp
  rw [← dget_sort_dictonary _ hnd] at hv
  exact hlt p.1 p.2 hne (hform ▸ hv)

/-- The first key touched by the merging loop stays in front. -/
theorem merge_fold_head (l : PyDict) (q : Nat × Nat) (acc' : PyDict) :
    ∃ w tail, l.foldl merge_step (q :: acc') = (q.1, w) :: tail := by
  induction l generalizing q acc' with
  | nil =>
      refine ⟨q.2, acc', ?_⟩
      rw [List.foldl_nil]
  | cons kv l' ih =>
      rw [List.foldl_cons]
      have hstep : merge_step (q :: acc') kv
          = if q.1 = kv.1 then (kv.1, max (dgetD (q :: acc') kv.1 0) kv.2) :: acc'
            else q :: dinsert acc' kv.1 (max (dgetD (q :: acc') kv.1 0) kv.2) := rfl
      rw [hstep]
      by_cases h : q.1 = kv.1
      · rw [if_pos h]
        obtain ⟨w, tail, hres⟩ := ih (kv.1, max (dgetD (q :: acc') kv.1 0) kv.2) acc'
        refine ⟨w, tail, ?_⟩
        rw [hres, h]
      · rw [if_neg h]
        exact ih q (dinsert acc' kv.1 (max (dgetD (q :: acc') kv.1 0) kv.2))

/-- When the first dict already starts with the pair `(c, v)` and `v` bounds
every merged value, the merged-and-sorted dict still starts with key `c`
(stability of the sort). -/
theorem get_sorted_moves_head_stable (A B : PyDict) (c v : Nat) (restA : PyDict)
    (hA : A = (c, v) :: restA)
    (hcv : dget (get_sorted_moves A B) c = some v)
    (hle : ∀ m w, dget (get_sorted_moves A B) m = some w → w ≤ v) :
    ∃ rest, get_sorted_moves A B = (c, v) :: rest := by
  have hnd : DNodup ((A ++ B).foldl merge_step []) := DNodup_merge_fold _ DNodup_nil
  have hform : get_sorted_moves A B = sort_dictonary ((A ++ B).foldl merge_step []) := rfl
  have hms : merge_step [] (c, v) = [(c, v)] := by
    unfold merge_step dgetD
    rw [dget_nil]
    simp [dinsert]
  have hcons : (A ++ B).foldl merge_step []
      = (restA ++ B).foldl merge_step ((c, v) :: []) := by
    rw [hA, List.cons_append, List.foldl_cons, hms]
  obtain ⟨w, tail, hM⟩ := merge_fold_head (restA ++ B) (c, v) []
  have hM2 : (A ++ B).foldl merge_step [] = (c, w) :: tail := by
    rw [hcons, hM]
  have hw : w = v := by
    have h1 : dget ((A ++ B).foldl merge_step []) c = some w := by
      rw [hM2, dget_cons, if_pos rfl]
    rw [← dget_sort_dictonary _ hnd, ← hform, hcv] at h1
    injection h1
    omega
  subst hw
  have hmax : ∀ p ∈ tail, p.2 ≤ w := by
    intro p hp
    have hpm : p ∈ (A ++ B).foldl merge_step [] := by
      rw [hM2]
      exact List.mem_cons_of_mem _ hp
    have hv := dget_val_of_mem hnd hpm
    rw [← dget_sort_dictonary _ hnd, ← hform] at hv
    exact hle p.1 p.2 hv
  refine ⟨sort_dictonary tail, ?_⟩
  rw [hform, hM2, sort_cons_of_max (c, w) hmax]

/-! ### The selection step of `make_smart_move` -/

theorem make_smart_move_eq_of_head (b : List (List String)) (s o : String) (c v : Nat)
    (h : ∃ rest, get_sorted_moves (calc_optimized_move b s) (calc_optimized_move b o)
      = (c, v) :: rest) :
    make_smart_move b s o = (c : Int) := by
  obtain ⟨rest, hrest⟩ := h
  simp only [make_smart_move, hrest, dkeys_cons]

/-- The default-0 value of the final score map never exceeds 2 on a
well-formed board with a real symbol. -/
theorem calc_dgetD_le_two (b : List (List String)) (s : String) (hwf : WF b)
    (hs : s = "X" ∨ s = "O") (m : Nat) :
    dgetD (calc_optimized_move b s) m 0 ≤ 2 := by
  unfold dgetD
  by_cases hm : m ∈ get_possible_moves b
  · rw [dget_calc b s hwf m hm]
    exact moveScore_le_two b s hwf m hm hs
  · rw [dget_calc_none b s m hm]
    simp

/-! ### Cells of possible moves -/

theorem possible_cell_ne (b : List (List String)) (hwf : WF b) {m : Nat}
    (hm : m ∈ get_possible_moves b) {t : String} (ht : t = "X" ∨ t = "O") :
    cellAtMove b m ≠ t := by
  obtain ⟨h1, h9, hx, ho⟩ := (mem_get_possible_moves b hwf m).mp hm
  rcases ht with rfl | rfl
  · exact hx
  · exact ho

theorem cellAtMove_mem_alphabet (b : List (List String)) (hwf : WF b)
    (halpha : AlphabetBoard b) (m : Nat) (h1 : 1 ≤ m) (h9 : m ≤ 9) :
    cellAtMove b m = "_" ∨ cellAtMove b m = "X" ∨ cellAtMove b m = "O" := by
  unfold cellAtMove cellD
  have hr : (m - 1) / 3 < 3 := by omega
  have hc : (m - 1) % 3 < 3 := by omega
  cases hrow : b.get? ((m - 1) / 3) with
  | none =>
      rw [List.get?_eq_none, hwf.1] at hrow
      omega
  | some row =>
      have hrowmem : row ∈ b := List.get?_mem hrow
      have hrowlen : row.length = 3 := hwf.2 row hrowmem
      cases hcell : row.get? ((m - 1) % 3) with
      | none =>
          rw [List.get?_eq_none, hrowlen] at hcell
          omega
      | some cell =>
          have hcellmem : cell ∈ row := List.get?_mem hcell
          rw [List.get?_eq_getElem?] at hcell
          simpa [hcell] using halpha row hrowmem cell hcellmem

theorem possible_cell_empty (b : List (List String)) (hwf : WF b)
    (halpha : AlphabetBoard b) {m : Nat} (hm : m ∈ get_possible_moves b) :
    cellAtMove b m = "_" := by
  obtain ⟨h1, h9, hx, ho⟩ := (mem_get_possible_moves b hwf m).mp hm
  rcases cellAtMove_mem_alphabet b hwf halpha m h1 h9 with h | h | h
  · exact h
  · exact absurd h hx
  · exact absurd h ho

/-! ### Core theorem for the completion-preference claim -/

set_option maxHeartbeats 1000000 in
theorem completion_core (b : List (List String)) (s o : String) (hwf : WF b)
    (hso : (s = "X" ∧ o = "O") ∨ (s = "O" ∧ o = "X"))
    (L : List Nat) (c : Nat) (hyp : CompletionHyp b s L c)
    (hexc : ¬(L = [1, 5, 9] ∧ c = 5)) :
    make_smart_move b s o = (c : Int) := by
  obtain ⟨hLmem, hcnt, hcL, hcemp, hother⟩ := hyp
  have hs : s = "X" ∨ s = "O" := by
    rcases hso with ⟨h, _⟩ | ⟨h, _⟩
    · exact Or.inl h
    · exact Or.inr h
  have ho : o = "X" ∨ o = "O" := by
    rcases hso with ⟨_, h⟩ | ⟨_, h⟩
    · exact Or.inr h
    · exact Or.inl h
  have hcb : 1 ≤ c ∧ c ≤ 9 := (allLines_mem_bounds L hLmem).2 c hcL
  have hcempX : cellAtMove b c ≠ "X" := by
    rw [hcemp]
    decide
  have hcempO : cellAtMove b c ≠ "O" := by
    rw [hcemp]
    decide
  have hcposs : c ∈ get_possible_moves b :=
    (mem_get_possible_moves b hwf c).mpr ⟨hcb.1, hcb.2, hcempX, hcempO⟩
  have hcemps : cellAtMove b c ≠ s := by
    rcases hs with rfl | rfl
    · exact hcempX
    · exact hcempO
  have hsc : moveScore b s c = 2 :=
    le_antisymm (moveScore_le_two b s hwf c hcposs hs)
      (moveScore_ge_two b s hLmem hcL hcnt hexc)
  have hothersle : ∀ m ∈ get_possible_moves b, m ≠ c → moveScore b s m ≤ 1 := by
    intro m hm hmc
    have hb := possible_bounds hm
    apply moveScore_le_one b s m hb.1 hb.2
    intro L' hL' hmL'
    by_cases hLL : L' = L
    · subst hLL
      exfalso
      exact hmc (eq_of_two_count (allLines_mem_bounds L' hL').1 hcnt hcL hmL' hcemps
        (possible_cell_ne b hwf hm hs))
    · have := hother L' hL' hLL
      omega
  have hc2 : dget (calc_optimized_move b s) c = some 2 := by
    rw [dget_calc b s hwf c hcposs, hsc]
  have hcurr : ∃ restA, calc_optimized_move b s = (c, 2) :: restA := by
    have hform : calc_optimized_move b s
        = get_sorted_moves
            (get_sorted_moves
              (get_optimized_diagonal_moves (get_diagonal_counts b s) (get_possible_moves b))
              (get_optimized_straight_moves (get_vertical_counts b s) (get_possible_moves b)
                false))
            (get_optimized_straight_moves (get_horizontal_counts b s) (get_possible_moves b)
              true) := rfl
    rw [hform] at hc2 ⊢
    apply get_sorted_moves_head_unique _ _ c 2 hc2
    intro m w hmc hw
    rw [← hform] at hw
    by_cases hm : m ∈ get_possible_moves b
    · rw [dget_calc b s hwf m hm] at hw
      have hwm : w = moveScore b s m := by
        injection hw
        omega
      have := hothersle m hm hmc
      omega
    · rw [dget_calc_none b s m hm] at hw
      cases hw
  obtain ⟨restA, hrestA⟩ := hcurr
  apply make_smart_move_eq_of_head b s o c 2
  have hkc : c ∈ dkeys (calc_optimized_move b s) := (mem_dkeys_calc b s hwf c).mpr hcposs
  have hvc : dget (get_sorted_moves (calc_optimized_move b s) (calc_optimized_move b o)) c
      = some 2 := by
    rw [dget_get_sorted_moves _ _ (DNodup_calc b s) (DNodup_calc b o), if_pos (Or.inl hkc)]
    have hvs : dgetD (calc_optimized_move b s) c 0 = 2 := by
      unfold dgetD
      rw [hc2]
      rfl
    have hvo : dgetD (calc_optimized_move b o) c 0 ≤ 2 := calc_dgetD_le_two b o hwf ho c
    rw [hvs, Nat.max_eq_left hvo]
  apply get_sorted_moves_head_stable _ _ c 2 restA hrestA hvc
  intro m w hw
  rw [dget_get_sorted_moves _ _ (DNodup_calc b s) (DNodup_calc b o)] at hw
  by_cases hk : m ∈ dkeys (calc_optimized_move b s) ∨ m ∈ dkeys (calc_optimized_move b o)
  · rw [if_pos hk] at hw
    have hws : dgetD (calc_optimized_move b s) m 0 ≤ 2 := calc_dgetD_le_two b s hwf hs m
    have hwo : dgetD (calc_optimized_move b o) m 0 ≤ 2 := calc_dgetD_le_two b o hwf ho m
    have hwm : w = max (dgetD (calc_optimized_move b s) m 0)
        (dgetD (calc_optimized_move b o) m 0) := by
      injection hw
      omega
    rw [hwm]
    exact max_le hws hwo
  · rw [if_neg hk] at hw
    cases hw

/-! ### Core theorem for the blocking claim -/

set_option maxHeartbeats 1000000 in
theorem blocking_core (b : List (List String)) (s o : String) (hwf : WF b)
    (halpha : AlphabetBoard b)
    (hso : (s = "X" ∧ o = "O") ∨ (s = "O" ∧ o = "X"))
    (L : List Nat) (c : Nat) (hyp : BlockingHyp b s o L c)
    (hexc : ¬(L = [1, 5, 9] ∧ c = 5)) :
    make_smart_move b s o = (c : Int) := by
  obtain ⟨hLmem, hcnt, hcL, hcemp, hothers, hself⟩ := hyp
  have hs : s = "X" ∨ s = "O" := by
    rcases hso with ⟨h, _⟩ | ⟨h, _⟩
    · exact Or.inl h
    · exact Or.inr h
  have ho : o = "X" ∨ o = "O" := by
    rcases hso with ⟨_, h⟩ | ⟨_, h⟩
    · exact Or.inr h
    · exact Or.inl h
  have hcb : 1 ≤ c ∧ c ≤ 9 := (allLines_mem_bounds L hLmem).2 c hcL
  have hcempX : cellAtMove b c ≠ "X" := by
    rw [hcemp]
    decide
  have hcempO : cellAtMove b c ≠ "O" := by
    rw [hcemp]
    decide
  have hcposs : c ∈ get_possible_moves b :=
    (mem_get_possible_moves b hwf c).mpr ⟨hcb.1, hcb.2, hcempX, hcempO⟩
  have hcempo : cellAtMove b c ≠ o := by
    rcases ho with rfl | rfl
    · exact hcempX
    · exact hcempO
  have hoc : moveScore b o c = 2 :=
    le_antisymm (moveScore_le_two b o hwf c hcposs ho)
      (moveScore_ge_two b o hLmem hcL hcnt hexc)
  have hselfle : ∀ m ∈ get_possible_moves b, moveScore b s m ≤ 1 := by
    intro m hm
    have hb := possible_bounds hm
    apply moveScore_le_one b s m hb.1 hb.2
    intro L' hL' hmL'
    have hle2 := lineCount_le_two b s (allLines_mem_bounds L' hL').1 hmL'
      (possible_cell_ne b hwf hm hs)
    have hne2 : lineCount b s L' ≠ 2 := by
      intro h2
      exact hself L' hL' ⟨h2, ⟨m, hmL', possible_cell_empty b hwf halpha hm⟩⟩
    omega
  have hopple : ∀ m ∈ get_possible_moves b, m ≠ c → moveScore b o m ≤ 1 := by
    intro m hm hmc
    have hb := possible_bounds hm
    apply moveScore_le_one b o m hb.1 hb.2
    intro L' hL' hmL'
    have hle2 := lineCount_le_two b o (allLines_mem_bounds L' hL').1 hmL'
      (possible_cell_ne b hwf hm ho)
    have hne2 : lineCount b o L' ≠ 2 := by
      intro h2
      by_cases hLL : L' = L
      · subst hLL
        exact hmc (eq_of_two_count (allLines_mem_bounds L' hL').1 h2 hcL hmL' hcempo
          (possible_cell_ne b hwf hm ho))
      · exact hothers L' hL' hLL ⟨h2, ⟨m, hmL', possible_cell_empty b hwf halpha hm⟩⟩
    omega
  apply make_smart_move_eq_of_head b s o c 2
  apply get_sorted_moves_head_unique
  · rw [dget_get_sorted_moves _ _ (DNodup_calc b s) (DNodup_calc b o),
      if_pos (Or.inr ((mem_dkeys_calc b o hwf c).mpr hcposs))]
    have hvs : dgetD (calc_optimized_move b s) c 0 ≤ 1 := by
      unfold dgetD
      rw [dget_calc b s hwf c hcposs]
      exact hselfle c hcposs
    have hvo : dgetD (calc_optimized_move b o) c 0 = 2 := by
      unfold dgetD
      rw [dget_calc b o hwf c hcposs, hoc]
      rfl
    rw [hvo, Nat.max_eq_right (le_trans hvs (by omega))]
  · intro m w hmc hw
    rw [dget_get_sorted_moves _ _ (DNodup_calc b s) (DNodup_calc b o)] at hw
    by_cases hk : m ∈ dkeys (calc_optimized_move b s) ∨ m ∈ dkeys (calc_optimized_move b o)
    · rw [if_pos hk] at hw
      have hmp : m ∈ get_possible_moves b := by
        rcases hk with h | h
        · exact (mem_dkeys_calc b s hwf m).mp h
        · exact (mem_dkeys_calc b o hwf m).mp h
      have hvs : dgetD (calc_optimized_move b s) m 0 ≤ 1 := by
        unfold dgetD
        rw [dget_calc b s hwf m hmp]
        exact hselfle m hmp
      have hvo : dgetD (calc_optimized_move b o) m 0 ≤ 1 := by
        unfold dgetD
        rw [dget_calc b o hwf m hmp]
        exact hopple m hmp hmc
      have hwm : w = max (dgetD (calc_optimized_move b s) m 0)
          (dgetD (calc_optimized_move b o) m 0) := by
        injection hw
        omega
      have := max_le hvs hvo
      omega
    · rw [if_neg hk] at hw
      cases hw

/-! ### Legality of the selected move -/

/-- Whenever any move is possible, `make_smart_move` returns one of the
possible moves — for any symbols whatsoever, as the code never validates
them. -/
theorem make_smart_move_mem (b : List (List String)) (s o : String) (hwf : WF b)
    (hne : get_possible_moves b ≠ []) :
    ∃ m ∈ get_possible_moves b, make_smart_move b s o = (m : Int) := by
  obtain ⟨m0, hm0⟩ := List.exists_mem_of_ne_nil _ hne
  have hk : m0 ∈ dkeys (get_sorted_moves (calc_optimized_move b s) (calc_optimized_move b o)) := by
    rw [mem_dkeys_get_sorted_moves _ _ (DNodup_calc b s) (DNodup_calc b o)]
    exact Or.inl ((mem_dkeys_calc b s hwf m0).mpr hm0)
  cases hM : get_sorted_moves (calc_optimized_move b s) (calc_optimized_move b o) with
  | nil =>
      rw [hM] at hk
      simp [dkeys] at hk
  | cons q tail =>
      refine ⟨q.1, ?_, ?_⟩
      · have hq : q.1 ∈ dkeys (get_sorted_moves (calc_optimized_move b s)
            (calc_optimized_move b o)) := by
          rw [hM, dkeys_cons]
          exact List.mem_cons_self _ _
        rw [mem_dkeys_get_sorted_moves _ _ (DNodup_calc b s) (DNodup_calc b o)] at hq
        rcases hq with h | h
        · exact (mem_dkeys_calc b s hwf q.1).mp h
        · exact (mem_dkeys_calc b o hwf q.1).mp h
      · exact make_smart_move_eq_of_head b s o q.1 q.2 ⟨tail, by rw [hM]⟩

/-! ### The fully occupied board -/

theorem line_assign_nil (line : List Nat) (cnt : Nat) (acc : PyDict) :
    line_assign [] line cnt acc = acc := rfl

theorem lines_assign_nil (all_moves : List (List Nat)) (sorted_fields : PyDict) :
    lines_assign all_moves [] sorted_fields = [] := by
  unfold lines_assign
  induction sorted_fields with
  | nil => rfl
  | cons rc sf ih => exact ih

theorem possible_empty_of_full (b : List (List String)) (hwf : WF b)
    (hfull : ∀ m, 1 ≤ m → m ≤ 9 → cellAtMove b m = "X" ∨ cellAtMove b m = "O") :
    get_possible_moves b = [] := by
  by_contra h
  obtain ⟨m, hm⟩ := List.exists_mem_of_ne_nil _ h
  obtain ⟨h1, h9, hx, ho⟩ := (mem_get_possible_moves b hwf m).mp hm
  rcases hfull m h1 h9 with hc | hc
  · exact hx hc
  · exact ho hc

theorem make_smart_move_full (b : List (List String)) (s o : String)
    (hposs : get_possible_moves b = []) :
    make_smart_move b s o = -1 := by
  have hstraight : ∀ (sf : PyDict) (horizontal : Bool),
      get_optimized_straight_moves sf [] horizontal = [] := by
    intro sf horizontal
    unfold get_optimized_straight_moves
    exact lines_assign_nil _ sf
  have hdiag : ∀ sf : PyDict, get_optimized_diagonal_moves sf [] = [] := by
    intro sf
    unfold get_optimized_diagonal_moves
    rw [lines_assign_nil]
    rfl
  have hcalc : ∀ t, calc_optimized_move b t = [] := by
    intro t
    have hform : calc_optimized_move b t
        = get_sorted_moves
            (get_sorted_moves
              (get_optimized_diagonal_moves (get_diagonal_counts b t) (get_possible_moves b))
              (get_optimized_straight_moves (get_vertical_counts b t) (get_possible_moves b)
                false))
            (get_optimized_straight_moves (get_horizontal_counts b t) (get_possible_moves b)
              true) := rfl
    rw [hform, hposs, hstraight, hstraight, hdiag]
    rfl
  have hmm : get_sorted_moves (calc_optimized_move b s) (calc_optimized_move b o) = [] := by
    rw [hcalc s, hcalc o]
    rfl
  simp only [make_smart_move, hmm, dkeys_nil]

/-! ### The rejection-sampling random move -/

theorem make_random_move_mem (b : List (List String)) (draws : List Nat) (r : Nat)
    (h : make_random_move b draws = some r) :
    r ∈ get_possible_moves b ∧ 1 ≤ r ∧ r ≤ 9 := by
  unfold make_random_move at h
  have hp := List.find?_some h
  rw [decide_eq_true_eq] at hp
  exact ⟨hp, possible_bounds hp⟩

theorem accepted_draws_eq_possible (b : List (List String)) :
    (List.range' 1 9).filter (fun v => decide (v ∈ get_possible_moves b))
      = get_possible_moves b := by
  have hform : get_possible_moves b
      = (List.range' 1 9).filter (fun m =>
          decide (m ∉ get_player_fields b "X" ∧ m ∉ get_player_fields b "O")) := rfl
  conv_rhs => rw [hform]
  apply List.filter_congr
  intro v hv
  rw [hform]
  simp [List.mem_filter, hv]

theorem make_random_move_none (b : List (List String)) (draws : List Nat)
    (h : get_possible_moves b = []) :
    make_random_move b draws = none := by
  unfold make_random_move
  rw [h]
  apply List.find?_eq_none.mpr
  intro x hx
  simp

theorem make_random_move_single (b : List (List String)) {v : Nat}
    (hv : v ∈ get_possible_moves b) :
    make_random_move b [v] = some v := by
  unfold make_random_move
  simp [List.find?, hv]

/-! ### Value of the merged map with default 0 -/

theorem dgetD_get_sorted_moves (A B : PyDict) (hA : DNodup A) (hB : DNodup B) (m : Nat) :
    dgetD (get_sorted_moves A B) m 0 = max (dgetD A m 0) (dgetD B m 0) := by
  unfold dgetD
  rw [dget_get_sorted_moves A B hA hB]
  by_cases h : m ∈ dkeys A ∨ m ∈ dkeys B
  · rw [if_pos h]
    rfl
  · rw [if_neg h]
    push_neg at h
    rw [(dget_eq_none_iff A m).mpr h.1, (dget_eq_none_iff B m).mpr h.2]
    rfl

/-! ## The claims -/

/-- C1, counterexample to the claim as stated.  On the board with the self
symbol X at cells 1 and 9, exactly one line — the main diagonal `[1, 5, 9]` —
holds two X stones together with the one empty cell 5, and every other line
holds strictly fewer X stones; yet `make_smart_move` picks 3, not 5: the
centre's main-diagonal score is overwritten by the (empty) anti-diagonal's
count, so cell 5 ends with score 0. -/
theorem c1_counterexample :
    WF [["X", "_", "_"], ["_", "_", "_"], ["_", "_", "X"]]
    ∧ AlphabetBoard [["X", "_", "_"], ["_", "_", "_"], ["_", "_", "X"]]
    ∧ CompletionHyp [["X", "_", "_"], ["_", "_", "_"], ["_", "_", "X"]] "X" [1, 5, 9] 5
    ∧ make_smart_move [["X", "_", "_"], ["_", "_", "_"], ["_", "_", "X"]] "X" "O" ≠ (5 : Int)
    ∧ make_smart_move [["X", "_", "_"], ["_", "_", "_"], ["_", "_", "X"]] "X" "O" = (3 : Int) :=
  ⟨by decide, by decide, by decide, by decide, by decide⟩

/-- C1 (amended): completion preference holds except through the centre of the
main diagonal.  For every 3×3 board, self symbol and opponent symbol (one X,
the other O), if exactly one line holds two of the self symbol's stones
together with one empty cell, every other line holds strictly fewer of the
self symbol's stones, and that line is not the main diagonal `[1, 5, 9]` with
its empty cell at the centre (move 5), then `make_smart_move` returns that
line's single empty cell. -/
theorem c1_completion_preference (b : List (List String)) (s o : String)
    (L : List Nat) (c : Nat) (hwf : WF b)
    (hso : (s = "X" ∧ o = "O") ∨ (s = "O" ∧ o = "X"))
    (hyp : CompletionHyp b s L c)
    (hexc : ¬(L = [1, 5, 9] ∧ c = 5)) :
    make_smart_move b s o = (c : Int) :=
  completion_core b s o hwf hso L c hyp hexc

/-- Witness for C1 at a concrete input: X completes its top row at cell 3. -/
theorem c1_witness :
    WF [["X", "X", "_"], ["O", "_", "_"], ["O", "_", "_"]]
    ∧ CompletionHyp [["X", "X", "_"], ["O", "_", "_"], ["O", "_", "_"]] "X" [1, 2, 3] 3
    ∧ ¬(([1, 2, 3] : List Nat) = [1, 5, 9] ∧ (3 : Nat) = 5)
    ∧ make_smart_move [["X", "X", "_"], ["O", "_", "_"], ["O", "_", "_"]] "X" "O" = (3 : Int) :=
  ⟨by decide, by decide, by decide,
    c1_completion_preference [["X", "X", "_"], ["O", "_", "_"], ["O", "_", "_"]] "X" "O"
      [1, 2, 3] 3 (by decide) (Or.inl ⟨rfl, rfl⟩) (by decide) (by decide)⟩

/-- C2, counterexample to the claim as stated.  In the diagonal family the
centre move 5 lies on both lines, so the "each move belongs to exactly one
line" part is false, and the two diagonals do assign conflicting scores: with
X at cell 1 only, move 5 lies on the main diagonal `[1, 5, 9]` of count 1, yet
the diagonal family map holds `5 ↦ 0` — the anti-diagonal's count, written
last, wins. -/
theorem c2_counterexample :
    (5 : Nat) ∈ get_possible_moves [["X", "_", "_"], ["_", "_", "_"], ["_", "_", "_"]]
    ∧ (5 : Nat) ∈ ([1, 5, 9] : List Nat)
    ∧ lineCount [["X", "_", "_"], ["_", "_", "_"], ["_", "_", "_"]] "X" [1, 5, 9] = 1
    ∧ lineCount [["X", "_", "_"], ["_", "_", "_"], ["_", "_", "_"]] "X" [3, 5, 7] = 0
    ∧ dget (get_optimized_diagonal_moves
        (get_diagonal_counts [["X", "_", "_"], ["_", "_", "_"], ["_", "_", "_"]] "X")
        (get_possible_moves [["X", "_", "_"], ["_", "_", "_"], ["_", "_", "_"]])) 5
      = some 0 :=
  ⟨by decide, by decide, by decide, by decide, by decide⟩

/-- C2 (amended): intra-family line scoring.  For rows and columns each empty
move lies on exactly one line of the family and its map holds exactly that
line's occupancy count.  For diagonals, an empty move on exactly one diagonal
gets that diagonal's count, but the centre (move 5), which lies on both
diagonals, is assigned the anti-diagonal's count — the later assignment in the
loop overwrites the main diagonal's — so when the two diagonal counts differ
the main diagonal's count is lost at the centre. -/
theorem c2_family_scores (b : List (List String)) (s : String) (m : Nat)
    (hwf : WF b) (hm : m ∈ get_possible_moves b) :
    dget (get_optimized_straight_moves (get_horizontal_counts b s) (get_possible_moves b) true) m
      = some (lineCount b s (rowLineOf m))
    ∧ dget (get_optimized_straight_moves (get_vertical_counts b s) (get_possible_moves b)
        false) m
      = some (lineCount b s (colLineOf m))
    ∧ dget (get_optimized_diagonal_moves (get_diagonal_counts b s) (get_possible_moves b)) m
      = (if m ∈ [3, 5, 7] then some (lineCount b s [3, 5, 7])
         else if m ∈ [1, 9] then some (lineCount b s [1, 5, 9])
         else none) :=
  ⟨dget_hori_map b s hwf m hm, dget_verti_map b s hwf m hm, dget_diag_map b s m hm⟩

/-- Witness for C2 at a concrete input. -/
theorem c2_witness :
    WF [["O", "O", "X"], ["X", "_", "X"], ["_", "O", "_"]]
    ∧ (5 : Nat) ∈ get_possible_moves [["O", "O", "X"], ["X", "_", "X"], ["_", "O", "_"]]
    ∧ (dget (get_optimized_straight_moves
        (get_horizontal_counts [["O", "O", "X"], ["X", "_", "X"], ["_", "O", "_"]] "X")
        (get_possible_moves [["O", "O", "X"], ["X", "_", "X"], ["_", "O", "_"]]) true) 5
      = some (lineCount [["O", "O", "X"], ["X", "_", "X"], ["_", "O", "_"]] "X" (rowLineOf 5))
    ∧ dget (get_optimized_straight_moves
        (get_vertical_counts [["O", "O", "X"], ["X", "_", "X"], ["_", "O", "_"]] "X")
        (get_possible_moves [["O", "O", "X"], ["X", "_", "X"], ["_", "O", "_"]]) false) 5
      = some (lineCount [["O", "O", "X"], ["X", "_", "X"], ["_", "O", "_"]] "X" (colLineOf 5))
    ∧ dget (get_optimized_diagonal_moves
        (get_diagonal_counts [["O", "O", "X"], ["X", "_", "X"], ["_", "O", "_"]] "X")
        (get_possible_moves [["O", "O", "X"], ["X", "_", "X"], ["_", "O", "_"]])) 5
      = (if (5 : Nat) ∈ [3, 5, 7]
         then some (lineCount [["O", "O", "X"], ["X", "_", "X"], ["_", "O", "_"]] "X" [3, 5, 7])
         else if (5 : Nat) ∈ [1, 9]
         then some (lineCount [["O", "O", "X"], ["X", "_", "X"], ["_", "O", "_"]] "X" [1, 5, 9])
         else none)) :=
  ⟨by decide, by decide,
    c2_family_scores [["O", "O", "X"], ["X", "_", "X"], ["_", "O", "_"]] "X" 5
      (by decide) (by decide)⟩

/-- C3, counterexample to the claim as stated.  The opponent O holds cells 1
and 9: its only two-stone line with an empty cell is the main diagonal,
blocked at cell 5, and the self symbol X (at cell 6) has no two-stone line;
yet `make_smart_move` returns 3, not the blocking cell 5, because the centre's
diagonal score is overwritten by the empty anti-diagonal's count. -/
theorem c3_counterexample :
    WF [["O", "_", "_"], ["_", "_", "X"], ["_", "_", "O"]]
    ∧ AlphabetBoard [["O", "_", "_"], ["_", "_", "X"], ["_", "_", "O"]]
    ∧ BlockingHyp [["O", "_", "_"], ["_", "_", "X"], ["_", "_", "O"]] "X" "O" [1, 5, 9] 5
    ∧ make_smart_move [["O", "_", "_"], ["_", "_", "X"], ["_", "_", "O"]] "X" "O" ≠ (5 : Int)
    ∧ make_smart_move [["O", "_", "_"], ["_", "_", "X"], ["_", "_", "O"]] "X" "O" = (3 : Int) :=
  ⟨by decide, by decide, by decide, by decide, by decide⟩

/-- C3 (amended): blocking behaviour holds except through the centre of the
main diagonal.  For every 3×3 board over the cells `_`, X, O, self and
opponent symbols (one X, the other O), if the opponent holds exactly one line
with two of its stones and one empty cell, no line of the self symbol holds
two stones together with an empty cell, and the opponent's line is not the
main diagonal `[1, 5, 9]` with its empty cell at the centre (move 5), then
`make_smart_move` returns that line's empty cell, blocking the opponent. -/
theorem c3_blocking (b : List (List String)) (s o : String)
    (L : List Nat) (c : Nat) (hwf : WF b) (halpha : AlphabetBoard b)
    (hso : (s = "X" ∧ o = "O") ∨ (s = "O" ∧ o = "X"))
    (hyp : BlockingHyp b s o L c)
    (hexc : ¬(L = [1, 5, 9] ∧ c = 5)) :
    make_smart_move b s o = (c : Int) :=
  blocking_core b s o hwf halpha hso L c hyp hexc

/-- Witness for C3 at a concrete input: X blocks O's top row at cell 3. -/
theorem c3_witness :
    WF [["O", "O", "_"], ["X", "_", "_"], ["_", "X", "_"]]
    ∧ AlphabetBoard [["O", "O", "_"], ["X", "_", "_"], ["_", "X", "_"]]
    ∧ BlockingHyp [["O", "O", "_"], ["X", "_", "_"], ["_", "X", "_"]] "X" "O" [1, 2, 3] 3
    ∧ ¬(([1, 2, 3] : List Nat) = [1, 5, 9] ∧ (3 : Nat) = 5)
    ∧ make_smart_move [["O", "O", "_"], ["X", "_", "_"], ["_", "X", "_"]] "X" "O" = (3 : Int) :=
  ⟨by decide, by decide, by decide, by decide,
    c3_blocking [["O", "O", "_"], ["X", "_", "_"], ["_", "X", "_"]] "X" "O"
      [1, 2, 3] 3 (by decide) (by decide) (Or.inl ⟨rfl, rfl⟩) (by decide) (by decide)⟩

/-- C4: legality.  For every well-formed 3×3 board over the cells `_`, X, O
that has at least one empty cell, with self and opponent symbols X and O (in
either order), `make_smart_move` returns an integer in `[1, 9]` that refers to
a currently empty cell of the input board. -/
theorem c4_legality (b : List (List String)) (s o : String) (hwf : WF b)
    (halpha : AlphabetBoard b)
    (hso : (s = "X" ∧ o = "O") ∨ (s = "O" ∧ o = "X"))
    (hne : ∃ m0, 1 ≤ m0 ∧ m0 ≤ 9 ∧ cellAtMove b m0 = "_") :
    ∃ m : Nat, make_smart_move b s o = (m : Int) ∧ 1 ≤ m ∧ m ≤ 9 ∧ cellAtMove b m = "_" := by
  obtain ⟨m0, h1, h9, hcell⟩ := hne
  have hm0 : m0 ∈ get_possible_moves b :=
    (mem_get_possible_moves b hwf m0).mpr
      ⟨h1, h9, by rw [hcell]; decide, by rw [hcell]; decide⟩
  have hne' : get_possible_moves b ≠ [] := fun h => by
    rw [h] at hm0
    simp at hm0
  obtain ⟨m, hm, hres⟩ := make_smart_move_mem b s o hwf hne'
  have hb := possible_bounds hm
  exact ⟨m, hres, hb.1, hb.2, possible_cell_empty b hwf halpha hm⟩

/-- Witness for C4 at a concrete input. -/
theorem c4_witness :
    WF [["O", "O", "X"], ["X", "_", "X"], ["_", "O", "_"]]
    ∧ AlphabetBoard [["O", "O", "X"], ["X", "_", "X"], ["_", "O", "_"]]
    ∧ (∃ m0, 1 ≤ m0 ∧ m0 ≤ 9
        ∧ cellAtMove [["O", "O", "X"], ["X", "_", "X"], ["_", "O", "_"]] m0 = "_")
    ∧ (∃ m : Nat, make_smart_move [["O", "O", "X"], ["X", "_", "X"], ["_", "O", "_"]] "X" "O"
        = (m : Int) ∧ 1 ≤ m ∧ m ≤ 9
        ∧ cellAtMove [["O", "O", "X"], ["X", "_", "X"], ["_", "O", "_"]] m = "_") :=
  ⟨by decide, by decide, ⟨5, by decide⟩,
    c4_legality [["O", "O", "X"], ["X", "_", "X"], ["_", "O", "_"]] "X" "O"
      (by decide) (by decide) (Or.inl ⟨rfl, rfl⟩) ⟨5, by decide⟩⟩

/-- C5: mergeMax semantics and algebra.  For duplicate-free score maps, the
merged map of `get_sorted_moves` holds, at every move of the union of the key
sets, the max of the two values (a missing key reading as 0), and holds
nothing elsewhere; regarded as mappings — ignoring the presentation order the
sort imposes — the operation is commutative and associative, so merging three
maps in any order yields the same mapping. -/
theorem c5_mergeMax (A B C : PyDict) (m : Nat)
    (hA : DNodup A) (hB : DNodup B) (hC : DNodup C) :
    (dget (get_sorted_moves A B) m
      = if m ∈ dkeys A ∨ m ∈ dkeys B then some (max (dgetD A m 0) (dgetD B m 0)) else none)
    ∧ dget (get_sorted_moves A B) m = dget (get_sorted_moves B A) m
    ∧ dget (get_sorted_moves (get_sorted_moves A B) C) m
        = dget (get_sorted_moves A (get_sorted_moves B C)) m := by
  refine ⟨dget_get_sorted_moves A B hA hB m, ?_, ?_⟩
  · rw [dget_get_sorted_moves A B hA hB m, dget_get_sorted_moves B A hB hA m]
    by_cases h : m ∈ dkeys A ∨ m ∈ dkeys B
    · rw [if_pos h, if_pos (Or.symm h), Nat.max_comm]
    · rw [if_neg h, if_neg (fun hc => h (Or.symm hc))]
  · have hAB : DNodup (get_sorted_moves A B) := DNodup_get_sorted_moves A B
    have hBC : DNodup (get_sorted_moves B C) := DNodup_get_sorted_moves B C
    rw [dget_get_sorted_moves _ C hAB hC m, dget_get_sorted_moves A _ hA hBC m]
    simp only [mem_dkeys_get_sorted_moves A B hA hB, mem_dkeys_get_sorted_moves B C hB hC,
      dgetD_get_sorted_moves A B hA hB, dgetD_get_sorted_moves B C hB hC]
    by_cases h : (m ∈ dkeys A ∨ m ∈ dkeys B) ∨ m ∈ dkeys C
    · rw [if_pos h, if_pos (by tauto), Nat.max_assoc]
    · rw [if_neg h, if_neg (by tauto)]

/-- Witness for C5 at concrete maps. -/
theorem c5_witness :
    DNodup [(1, 2), (2, 1)] ∧ DNodup [(2, 3), (5, 4)] ∧ DNodup [(1, 1)]
    ∧ ((dget (get_sorted_moves [(1, 2), (2, 1)] [(2, 3), (5, 4)]) 2
      = if (2 : Nat) ∈ dkeys [(1, 2), (2, 1)] ∨ (2 : Nat) ∈ dkeys [(2, 3), (5, 4)]
        then some (max (dgetD [(1, 2), (2, 1)] 2 0) (dgetD [(2, 3), (5, 4)] 2 0)) else none)
    ∧ dget (get_sorted_moves [(1, 2), (2, 1)] [(2, 3), (5, 4)]) 2
      = dget (get_sorted_moves [(2, 3), (5, 4)] [(1, 2), (2, 1)]) 2
    ∧ dget (get_sorted_moves (get_sorted_moves [(1, 2), (2, 1)] [(2, 3), (5, 4)]) [(1, 1)]) 2
      = dget (get_sorted_moves [(1, 2), (2, 1)] (get_sorted_moves [(2, 3), (5, 4)] [(1, 1)])) 2) :=
  ⟨by decide, by decide, by decide,
    c5_mergeMax [(1, 2), (2, 1)] [(2, 3), (5, 4)] [(1, 1)] 2 (by decide) (by decide) (by decide)⟩

/-- C6: exhaustion sentinel.  For every well-formed 3×3 board that is fully
occupied (every cell holds X or O), `make_smart_move` returns the sentinel
`-1` — for any symbol arguments whatsoever — and `-1` lies outside the valid
move range `[1, 9]`, so it cannot be mistaken for a board coordinate. -/
theorem c6_exhaustion (b : List (List String)) (s o : String) (hwf : WF b)
    (hfull : ∀ m, 1 ≤ m → m ≤ 9 → cellAtMove b m = "X" ∨ cellAtMove b m = "O") :
    make_smart_move b s o = -1
    ∧ ¬(1 ≤ make_smart_move b s o ∧ make_smart_move b s o ≤ 9) := by
  have hposs := possible_empty_of_full b hwf hfull
  have hres := make_smart_move_full b s o hposs
  refine ⟨hres, ?_⟩
  rw [hres]
  omega

/-- Witness for C6 at a concrete full board. -/
theorem c6_witness :
    WF [["X", "O", "X"], ["O", "X", "O"], ["O", "X", "O"]]
    ∧ make_smart_move [["X", "O", "X"], ["O", "X", "O"], ["O", "X", "O"]] "X" "O" = -1
    ∧ ¬(1 ≤ make_smart_move [["X", "O", "X"], ["O", "X", "O"], ["O", "X", "O"]] "X" "O"
        ∧ make_smart_move [["X", "O", "X"], ["O", "X", "O"], ["O", "X", "O"]] "X" "O" ≤ 9) :=
  ⟨by decide,
    c6_exhaustion [["X", "O", "X"], ["O", "X", "O"], ["O", "X", "O"]] "X" "O" (by decide)
      (by intro m h1 h9; interval_cases m <;> decide)⟩

/-- C7, counterexample to the claim as stated.  `make_smart_move` performs no
symbol validation at all: called on the empty board with the self symbol equal
to the opponent symbol (both X), it does not reject the call — it scores the
board as usual and returns the move 1. -/
theorem c7_counterexample :
    make_smart_move [["_", "_", "_"], ["_", "_", "_"], ["_", "_", "_"]] "X" "X" = (1 : Int)
    ∧ (1 : Int) ≠ -1 ∧ 1 ≤ (1 : Int) ∧ (1 : Int) ≤ 9 :=
  ⟨by decide, by decide, by decide, by decide⟩

/-- C7 (amended): no symbol validation exists.  For every well-formed 3×3
board with at least one possible move, and for any self and opponent symbols
whatsoever — equal to each other, or outside the alphabet X, O —
`make_smart_move` proceeds to scoring and returns one of the board's possible
moves (an integer in `[1, 9]`); no InvalidSymbol rejection path exists in the
code. -/
theorem c7_no_symbol_validation (b : List (List String)) (s o : String) (hwf : WF b)
    (hne : get_possible_moves b ≠ []) :
    ∃ m ∈ get_possible_moves b, make_smart_move b s o = (m : Int) ∧ 1 ≤ m ∧ m ≤ 9 := by
  obtain ⟨m, hm, hres⟩ := make_smart_move_mem b s o hwf hne
  have hb := possible_bounds hm
  exact ⟨m, hm, hres, hb.1, hb.2⟩

/-- Witness for C7 at a concrete input with equal, out-of-alphabet symbols. -/
theorem c7_witness :
    WF [["X", "_", "_"], ["_", "_", "_"], ["_", "_", "X"]]
    ∧ get_possible_moves [["X", "_", "_"], ["_", "_", "_"], ["_", "_", "X"]] ≠ []
    ∧ ∃ m ∈ get_possible_moves [["X", "_", "_"], ["_", "_", "_"], ["_", "_", "X"]],
        make_smart_move [["X", "_", "_"], ["_", "_", "_"], ["_", "_", "X"]] "Q" "Q" = (m : Int)
        ∧ 1 ≤ m ∧ m ≤ 9 :=
  ⟨by decide, by decide,
    c7_no_symbol_validation [["X", "_", "_"], ["_", "_", "_"], ["_", "_", "X"]] "Q" "Q"
      (by decide) (by decide)⟩

/-- C8: no mutation, and the transposition is the matrix transpose.  All the
engine's functions are embedded as pure functions because the source only ever
reads `game_board` (no function of `smart_bot.py` assigns to an element of its
input); in particular `transposed` builds a new grid by comprehension, and
that grid is a well-formed 3×3 grid whose cell at `(i, j)` is the input's cell
at `(j, i)`. -/
theorem c8_transposed_pure (b : List (List String)) (hwf : WF b) (i j : Nat)
    (hi : i < 3) (hj : j < 3) :
    (transposed b).length = 3
    ∧ (∀ row ∈ transposed b, row.length = 3)
    ∧ cellD (transposed b) i j = cellD b j i :=
  ⟨transposed_length hwf, (WF_transposed hwf).2, cellD_transposed b hwf i j hi hj⟩

/-- Witness for C8 at a concrete input. -/
theorem c8_witness :
    WF [["O", "O", "X"], ["X", "_", "X"], ["_", "O", "_"]]
    ∧ (1 : Nat) < 3 ∧ (2 : Nat) < 3
    ∧ ((transposed [["O", "O", "X"], ["X", "_", "X"], ["_", "O", "_"]]).length = 3
    ∧ (∀ row ∈ transposed [["O", "O", "X"], ["X", "_", "X"], ["_", "O", "_"]], row.length = 3)
    ∧ cellD (transposed [["O", "O", "X"], ["X", "_", "X"], ["_", "O", "_"]]) 1 2
      = cellD [["O", "O", "X"], ["X", "_", "X"], ["_", "O", "_"]] 2 1) :=
  ⟨by decide, by decide, by decide,
    c8_transposed_pure [["O", "O", "X"], ["X", "_", "X"], ["_", "O", "_"]] (by decide) 1 2
      (by decide) (by decide)⟩

/-- C9: the rejection-sampling random move.  Modelling `random.randint(1, 9)`
by the explicit stream of drawn values: any returned move is a possible
(empty) move in `[1, 9]`; among the nine equiprobable draw values of one
round, the accepted ones are exactly the possible moves, each hit by exactly
one draw value — so conditioned on acceptance the returned move is uniform
over the empty cells, and when an empty cell exists some draw value is
accepted, so each round terminates with positive probability and the loop
terminates with probability one; on a board with no empty cell no draw is
ever accepted, so the loop never returns — it spins forever. -/
theorem c9_random_fallback (b : List (List String)) (draws : List Nat) (r : Nat) :
    (make_random_move b draws = some r → r ∈ get_possible_moves b ∧ 1 ≤ r ∧ r ≤ 9)
    ∧ (List.range' 1 9).filter (fun v => decide (v ∈ get_possible_moves b))
        = get_possible_moves b
    ∧ (get_possible_moves b).Nodup
    ∧ (get_possible_moves b ≠ [] → ∃ v ∈ List.range' 1 9, make_random_move b [v] = some v)
    ∧ (get_possible_moves b = [] → make_random_move b draws = none) := by
  refine ⟨make_random_move_mem b draws r, accepted_draws_eq_possible b, possible_nodup b,
    ?_, make_random_move_none b draws⟩
  intro hne
  obtain ⟨v, hv⟩ := List.exists_mem_of_ne_nil _ hne
  have hb := possible_bounds hv
  exact ⟨v, (mem_range'_one_nine v).mpr hb, make_random_move_single b hv⟩

/-- Witness for C9 at a concrete input. -/
theorem c9_witness :
    (make_random_move [["X", "_", "_"], ["_", "_", "_"], ["_", "_", "X"]] [2, 5] = some 2 →
      (2 : Nat) ∈ get_possible_moves [["X", "_", "_"], ["_", "_", "_"], ["_", "_", "X"]]
      ∧ 1 ≤ (2 : Nat) ∧ (2 : Nat) ≤ 9)
    ∧ (List.range' 1 9).filter
        (fun v => decide (v ∈ get_possible_moves [["X", "_", "_"], ["_", "_", "_"], ["_", "_", "X"]]))
      = get_possible_moves [["X", "_", "_"], ["_", "_", "_"], ["_", "_", "X"]]
    ∧ (get_possible_moves [["X", "_", "_"], ["_", "_", "_"], ["_", "_", "X"]]).Nodup
    ∧ (get_possible_moves [["X", "_", "_"], ["_", "_", "_"], ["_", "_", "X"]] ≠ [] →
        ∃ v ∈ List.range' 1 9,
          make_random_move [["X", "_", "_"], ["_", "_", "_"], ["_", "_", "X"]] [v] = some v)
    ∧ (get_possible_moves [["X", "_", "_"], ["_", "_", "_"], ["_", "_", "X"]] = [] →
        make_random_move [["X", "_", "_"], ["_", "_", "_"], ["_", "_", "X"]] [2, 5] = none) :=
  c9_random_fallback [["X", "_", "_"], ["_", "_", "_"], ["_", "_", "X"]] [2, 5] 2

/-- C10: score-map completeness.  For every well-formed 3×3 board over the
cells `_`, X, O and either player symbol, the key set of the priority map
returned by `calc_optimized_move` is exactly the set of empty moves of the
board: every empty move receives a score (each lies on some row), and no
occupied move ever appears as a key. -/
theorem c10_score_map_keys (b : List (List String)) (s : String) (m : Nat)
    (hwf : WF b) (halpha : AlphabetBoard b) (hs : s = "X" ∨ s = "O") :
    m ∈ dkeys (calc_optimized_move b s) ↔ 1 ≤ m ∧ m ≤ 9 ∧ cellAtMove b m = "_" := by
  rw [mem_dkeys_calc b s hwf m]
  constructor
  · intro h
    obtain ⟨h1, h9, _, _⟩ := (mem_get_possible_moves b hwf m).mp h
    exact ⟨h1, h9, possible_cell_empty b hwf halpha h⟩
  · rintro ⟨h1, h9, hc⟩
    exact (mem_get_possible_moves b hwf m).mpr
      ⟨h1, h9, by rw [hc]; decide, by rw [hc]; decide⟩

/-- Witness for C10 at a concrete input. -/
theorem c10_witness :
    WF [["O", "O", "X"], ["X", "_", "X"], ["_", "O", "_"]]
    ∧ AlphabetBoard [["O", "O", "X"], ["X", "_", "X"], ["_", "O", "_"]]
    ∧ ((7 : Nat) ∈ dkeys (calc_optimized_move [["O", "O", "X"], ["X", "_", "X"], ["_", "O", "_"]] "X")
      ↔ 1 ≤ (7 : Nat) ∧ (7 : Nat) ≤ 9
        ∧ cellAtMove [["O", "O", "X"], ["X", "_", "X"], ["_", "O", "_"]] 7 = "_") :=
  ⟨by decide, by decide,
    c10_score_map_keys [["O", "O", "X"], ["X", "_", "X"], ["_", "O", "_"]] "X" 7
      (by decide) (by decide) (Or.inl rfl)⟩
